import Mathlib

/-!
Verification development for the ban_cadastre record-linkage engine.

The Rust sources are shallowly embedded over exact rational arithmetic:

* f64 coordinates and distances become rationals, so every value is finite
  and the is_finite guards of the source are identically true;
* the point-to-geometry distance of the external geo crate
  (ParcelGeometry::distance_to_point, structures.rs) is a parameter
  dist : G → Pt → ℚ of every matcher definition; where a theorem needs the
  geometric facts that the distance is nonnegative and that the stored
  envelope encloses the geometry, they appear as explicit hypotheses;
* R-tree queries of the external rstar crate are modelled over plain lists:
  an envelope query returns the matching elements in ascending index order
  and the nearest-neighbour walk of Stage 2 is a parameter, since the crate
  leaves such orders unspecified;
* HashMap and HashSet become lists with the matching insertion semantics.
-/

namespace BanCadastre

/-- Planar point in the working CRS, with exact rational coordinates. -/
structure Pt where
  x : ℚ
  y : ℚ
  deriving DecidableEq, Repr

/-- Axis-aligned bounding box with lower and upper corners, as rstar AABB. -/
structure Aabb where
  lower : Pt
  upper : Pt
  deriving DecidableEq, Repr

/-- rstar AABB::from_point. -/
def Aabb.fromPoint (p : Pt) : Aabb := ⟨p, p⟩

/-- rstar AABB::from_corners, which normalises the two corners componentwise. -/
def Aabb.fromCorners (a b : Pt) : Aabb :=
  ⟨⟨min a.x b.x, min a.y b.y⟩, ⟨max a.x b.x, max a.y b.y⟩⟩

/-- rstar AABB::contains_point (bounds inclusive); also the membership test of
locate_in_envelope for the degenerate point envelopes of address nodes. -/
def Aabb.containsPt (e : Aabb) (p : Pt) : Prop :=
  e.lower.x ≤ p.x ∧ p.x ≤ e.upper.x ∧ e.lower.y ≤ p.y ∧ p.y ≤ e.upper.y

instance (e : Aabb) (p : Pt) : Decidable (e.containsPt p) := by
  unfold Aabb.containsPt; infer_instance

/-- rstar AABB::distance_2: squared euclidean distance from a point to the box
(zero inside), computed through the componentwise clamp of the point. -/
def Aabb.dist2 (e : Aabb) (p : Pt) : ℚ :=
  let cx := max e.lower.x (min p.x e.upper.x)
  let cy := max e.lower.y (min p.y e.upper.y)
  (p.x - cx) * (p.x - cx) + (p.y - cy) * (p.y - cy)

/-- matcher.rs expand_aabb: grow the box by a margin on all sides. -/
def expandAabb (env : Aabb) (margin : ℚ) : Aabb :=
  Aabb.fromCorners ⟨env.lower.x - margin, env.lower.y - margin⟩
    ⟨env.upper.x + margin, env.upper.y + margin⟩

/-- structures.rs MatchType. -/
inductive MatchType where
  | PreExisting
  | Inside
  | BorderNear
  | FallbackNearest
  | None
  deriving DecidableEq, Repr

/-- structures.rs match_type_priority. -/
def matchTypePriority (mt : MatchType) : ℕ :=
  match mt with
  | .PreExisting => 0
  | .Inside => 1
  | .BorderNear => 2
  | .FallbackNearest => 3
  | .None => 100

/-- structures.rs MatchOutput; distance_m is the exact rational standing in for
the f32 field. -/
structure MatchOutput where
  id_ban : String
  id_parcelle : Option String
  match_type : MatchType
  distance_m : ℚ
  confidence : ℕ
  deriving DecidableEq, Repr

/-- structures.rs MatchOutput::new, deriving confidence from the match type and
the distance. -/
def MatchOutput.new (id_ban : String) (id_parcelle : Option String)
    (match_type : MatchType) (distance_m : ℚ) : MatchOutput :=
  let confidence : ℕ :=
    match match_type with
    | .PreExisting => 100
    | .Inside => 90
    | .BorderNear => if distance_m < 5 then 80 else 70
    | .FallbackNearest => 50
    | .None => 0
  ⟨id_ban, id_parcelle, match_type, distance_m, confidence⟩

/-- structures.rs AddressInput. -/
structure AddressInput where
  id : String
  code_insee : String
  geom : Pt
  existing_link : Option String
  deriving DecidableEq, Repr

/-- structures.rs ParcelData; the geometry is a value of an arbitrary type G,
whose point distance is supplied separately (it lives in the geo crate). -/
structure ParcelData (G : Type) where
  id : String
  code_insee : String
  geom : G
  envelope : Aabb
  deriving DecidableEq, Repr

/-- MatchConfig with the three distance options used by the matcher
(matcher.rs and link_mode.rs). -/
structure MatchConfig where
  address_max_distance_m : ℚ
  fallback_max_distance_m : ℚ
  fallback_envelope_expand_m : ℚ
  deriving DecidableEq, Repr

/-- matcher.rs INSIDE_EPS_M. -/
def insideEps : ℚ := 1 / 100

/-- Separator set of build_preexisting_map: semicolon, pipe or comma. -/
def linkSep (c : Char) : Bool := c == ';' || c == '|' || c == ','

/-- Accumulator pass of rustSplit over the character list. -/
def splitCharsAux (sep : Char → Bool) : List Char → List Char → List (List Char)
  | [], acc => [acc.reverse]
  | c :: cs, acc =>
    if sep c then acc.reverse :: splitCharsAux sep cs []
    else splitCharsAux sep cs (c :: acc)

/-- str::split of Rust on a character predicate: n separators yield n + 1
pieces, empty pieces preserved. -/
def rustSplit (s : String) (sep : Char → Bool) : List String :=
  (splitCharsAux sep s.data []).map (fun l => String.mk l)

/-- str::trim of Rust: strip whitespace from both ends. -/
def rustTrim (s : String) : String :=
  String.mk (((s.data.dropWhile Char.isWhitespace).reverse.dropWhile
    Char.isWhitespace).reverse)

/-- matcher.rs build_preexisting_map, flattened to its insertion sequence: one
(parcel id, record) pair per retained token, in address-then-token order. The
HashMap of the source groups this sequence by parcel id, preserving per-key
insertion order, which preexistingMapGet reproduces. -/
def preexistingPairs (addresses : List AddressInput) (known : List String) :
    List (String × MatchOutput) :=
  addresses.flatMap (fun addr =>
    match addr.existing_link with
    | none => []
    | some links =>
      (rustSplit links linkSep).filterMap (fun tok =>
        let pid := rustTrim tok
        if pid = "" then none
        else if pid ∈ known then
          some (pid, MatchOutput.new addr.id (some pid) MatchType.PreExisting 0)
        else none))

/-- Lookup in the preexisting map: the records pushed under one parcel id, in
insertion order. -/
def preexistingMapGet (addresses : List AddressInput) (known : List String)
    (pid : String) : List MatchOutput :=
  ((preexistingPairs addresses known).filter (fun e => decide (e.1 = pid))).map (·.2)

/-- List indexing prefix, as Iterator::enumerate starting at n. -/
def enumIdx : ℕ → List α → List (ℕ × α)
  | _, [] => []
  | n, a :: as => (n, a) :: enumIdx (n + 1) as

/-- Iterator::enumerate from zero, the index layout of both R-trees. -/
def enumerate (l : List α) : List (ℕ × α) := enumIdx 0 l

/-- indexer.rs AddressIndex::locate_in_envelope: the addresses whose point lies
in the box. The tree yields them in an unspecified order, modelled here as the
address array order. -/
def locateInEnvelope (addresses : List AddressInput) (env : Aabb) :
    List AddressInput :=
  addresses.filter (fun a => decide (env.containsPt a.geom))

/-- AddressIndex::locate_in_envelope_indices as used by Stage 3: index and
address of each point inside the box, in the same modelled order. -/
def locateInEnvelopeIdx (addresses : List AddressInput) (env : Aabb) :
    List (ℕ × AddressInput) :=
  (enumerate addresses).filter (fun ia => decide (env.containsPt ia.2.geom))

section Matcher

variable {G : Type}

/-- indexer.rs PointDistance for ParcelNode: the square of the exact
point-to-geometry distance (not the envelope distance). -/
def parcelNodeDist2 (dist : G → Pt → ℚ) (p : ParcelData G) (pt : Pt) : ℚ :=
  let d := dist p.geom pt
  d * d

/-- matcher.rs is_inside_or_on_border; the is_finite guard of the source holds
identically over ℚ. -/
def isInsideOrOnBorder (dist : G → Pt → ℚ) (parcel : ParcelData G) (p : Pt) :
    Prop :=
  dist parcel.geom p ≤ insideEps

instance (dist : G → Pt → ℚ) (parcel : ParcelData G) (p : Pt) :
    Decidable (isInsideOrOnBorder dist parcel p) := by
  unfold isInsideOrOnBorder; infer_instance

/-- Stage 1 body for one parcel (matcher.rs lines 75 to 102): the preexisting
records of the parcel followed by the Inside records of the addresses located
in its envelope, skipping address ids already emitted as preexisting. -/
def step1ForParcel (dist : G → Pt → ℚ) (addresses : List AddressInput)
    (known : List String) (parcel : ParcelData G) : List MatchOutput :=
  let pre := preexistingMapGet addresses known parcel.id
  let strictAddrIds := pre.map (·.id_ban)
  pre ++ (locateInEnvelope addresses parcel.envelope).filterMap (fun addr =>
    if addr.id ∈ strictAddrIds then none
    else if isInsideOrOnBorder dist parcel addr.geom then
      some (MatchOutput.new addr.id (some parcel.id) MatchType.Inside 0)
    else none)

/-- Stage 2 walk (matcher.rs lines 137 to 156): consume nearest-neighbour
candidates, stopping at the first node whose distance_2 exceeds thr², keeping
the strictly closest parcel with insideEps < d ≤ thr. -/
def step2Loop (dist : G → Pt → ℚ) (thr : ℚ) (pt : Pt) :
    List (ParcelData G) → Option (ParcelData G × ℚ) → Option (ParcelData G × ℚ)
  | [], best => best
  | p :: rest, best =>
    if parcelNodeDist2 dist p pt > thr * thr then best
    else
      let d := dist p.geom pt
      let best' :=
        if d ≤ insideEps ∨ d > thr then best
        else
          match best with
          | none => some (p, d)
          | some (q, bd) => if d < bd then some (p, d) else some (q, bd)
      step2Loop dist thr pt rest best'

/-- The candidates the Stage 2 walk examines before its early termination. -/
def step2Examined (dist : G → Pt → ℚ) (thr : ℚ) (pt : Pt)
    (walk : List (ParcelData G)) : List (ParcelData G) :=
  walk.takeWhile (fun p => decide (parcelNodeDist2 dist p pt ≤ thr * thr))

/-- Stage 2 for one address (matcher.rs lines 130 to 165); walk is the order
in which the parcel R-tree yields its candidates. -/
def step2ForAddress (dist : G → Pt → ℚ) (walk : List (ParcelData G)) (thr : ℚ)
    (addr : AddressInput) : Option MatchOutput :=
  match step2Loop dist thr addr.geom walk none with
  | none => none
  | some (p, d) => some (MatchOutput.new addr.id (some p.id) MatchType.BorderNear d)

/-- Mutable state of the Stage 3 expansion loop: seen address indices (a
HashSet in the source), the current best as (address index, exact distance,
address id) — three variables always assigned together in the source — and the
any_new flag of the current window pass. -/
structure Step3St where
  seen : List ℕ
  best : Option (ℕ × ℚ × String)
  anyNew : Bool
  deriving DecidableEq, Repr

/-- Stage 3 treatment of one window candidate (matcher.rs lines 207 to 251):
skip seen indices, then the envelope lower-bound pruning, then the distance
cap, then the strict improvement or the ascending-address-id tie-break. -/
def step3Consider (dist : G → Pt → ℚ) (dmax : ℚ) (parcel : ParcelData G)
    (st : Step3St) (ia : ℕ × AddressInput) : Step3St :=
  if ia.1 ∈ st.seen then st
  else
    let st1 : Step3St := { st with seen := ia.1 :: st.seen, anyNew := true }
    let skip : Bool :=
      match st1.best with
      | some (_, bd, _) => decide (parcel.envelope.dist2 ia.2.geom ≥ bd * bd)
      | none => false
    if skip then st1
    else
      let d := dist parcel.geom ia.2.geom
      if d > dmax then st1
      else
        let better : Bool :=
          match st1.best with
          | none => true
          | some (_, bd, bid) =>
            if d < bd then true
            else if d = bd then decide (ia.2.id < bid)
            else false
        if better then { st1 with best := some (ia.1, d, ia.2.id) } else st1

/-- Stage 3 expansion loop (matcher.rs lines 203 to 274). The fuel argument
only bounds the number of radius growths; exhausting it yields none, so every
emission of the model is an emission of the source. -/
def step3Loop (dist : G → Pt → ℚ) (dmax : ℚ) (parcel : ParcelData G)
    (addresses : List AddressInput) : ℕ → ℚ → Step3St → Option Step3St
  | 0, _, _ => none
  | Nat.succ fuel, r, st =>
    if r > dmax then some st
    else
      let st' := (locateInEnvelopeIdx addresses (expandAabb parcel.envelope r)).foldl
        (step3Consider dist dmax parcel) { st with anyNew := false }
      let stopBest : Bool :=
        match st'.best with
        | some (_, bd, _) => decide (bd ≤ r)
        | none => false
      if stopBest then some st'
      else if !st'.anyNew && decide (r ≥ dmax) then some st'
      else
        let next0 := min (r * 2) dmax
        let nextR :=
          match st'.best with
          | some (_, bd, _) => if bd > r then min bd dmax else next0
          | none => next0
        if nextR ≤ r then some st'
        else step3Loop dist dmax parcel addresses fuel nextR st'

/-- Stage 3 for one parcel (matcher.rs lines 187 to 293): run the expansion
loop from the clamped initial radius and classify the best hit as Inside when
within insideEps, as FallbackNearest otherwise. -/
def step3ForParcel (dist : G → Pt → ℚ) (cfg : MatchConfig)
    (addresses : List AddressInput) (parcel : ParcelData G) (fuel : ℕ) :
    Option MatchOutput :=
  match step3Loop dist cfg.fallback_max_distance_m parcel addresses fuel
      (max cfg.fallback_envelope_expand_m 5) ⟨[], none, false⟩ with
  | none => none
  | some st =>
    match st.best with
    | none => none
    | some (_, bd, aid) =>
      if bd ≤ insideEps then
        some (MatchOutput.new aid (some parcel.id) MatchType.Inside 0)
      else
        some (MatchOutput.new aid (some parcel.id) MatchType.FallbackNearest bd)

/-- matcher.rs parcel_idx_by_id: a HashMap built by inserting every (id, index)
pair in order, so a duplicated id keeps its last index. -/
def parcelIdxById (parcels : List (ParcelData G)) (pid : String) : Option ℕ :=
  (((enumerate parcels).filter (fun ip => decide (ip.2.id = pid))).map (·.1)).getLast?

/-- Parcel indices marked as matched by a record batch (matcher.rs lines 119
to 125 and 169 to 175). -/
def markedIndices (parcels : List (ParcelData G)) (ms : List MatchOutput) :
    List ℕ :=
  ms.filterMap (fun m => m.id_parcelle.bind (parcelIdxById parcels))

/-- matcher.rs match_parcels_and_addresses_3_steps. nn gives, per address, the
order in which the parcel R-tree nearest-neighbour iterator yields candidates;
fuel bounds the Stage 3 radius growths. Per-stage outputs are concatenated in
unit order, as the parallel collect of the source guarantees. -/
def matchParcelsAndAddresses3Steps (dist : G → Pt → ℚ)
    (nn : AddressInput → List (ParcelData G)) (parcels : List (ParcelData G))
    (addresses : List AddressInput) (cfg : MatchConfig) (fuel : ℕ) :
    List MatchOutput :=
  let known := parcels.map (·.id)
  let step1 := parcels.flatMap (step1ForParcel dist addresses known)
  let step2 := addresses.filterMap
    (fun a => step2ForAddress dist (nn a) cfg.address_max_distance_m a)
  let marked := markedIndices parcels (step1 ++ step2)
  let withoutMatch := (enumerate parcels).filter (fun ip => decide (ip.1 ∉ marked))
  let step3 := withoutMatch.filterMap
    (fun ip => step3ForParcel dist cfg addresses ip.2 fuel)
  step1 ++ step2 ++ step3

end Matcher

/-! Loader model (loader.rs). Parquet cell values and parsed WKB geometries are
embedded as data; a row carries the outcome of its WKB parse, with none
standing for bytes the geozero decoder rejects. -/

/-- A dynamic parquet cell: string, integer or null/other. -/
inductive ColVal where
  | str (s : String)
  | long (n : Int)
  | null
  deriving DecidableEq, Repr

/-- loader.rs get_string_or_long: coerce a string or integer cell to a string. -/
def getStringOrLong (v : ColVal) : Option String :=
  match v with
  | .str s => some s
  | .long n => some (toString n)
  | .null => none

/-- Outcome of geozero Wkb::to_geo on the geometry bytes of one row: the
geo-crate geometry kinds the loader distinguishes. Polygon and multipolygon
geometries are carried as their coordinate lists, which is all the bounding
rectangle computation observes. -/
inductive GeoGeometry where
  | point (p : Pt)
  | polygon (coords : List Pt)
  | multiPolygon (coords : List Pt)
  | otherGeom
  deriving DecidableEq, Repr

/-- structures.rs ParcelGeometry. -/
inductive ParcelGeometry where
  | polygon (coords : List Pt)
  | multiPolygon (coords : List Pt)
  deriving DecidableEq, Repr

/-- Coordinate list of a parcel geometry. -/
def ParcelGeometry.coords : ParcelGeometry → List Pt
  | .polygon cs => cs
  | .multiPolygon cs => cs

/-- geo BoundingRect: the tight axis-aligned rectangle of a coordinate list,
none when the geometry is empty. -/
def boundingRect : List Pt → Option Aabb
  | [] => none
  | c :: cs => some (cs.foldl
      (fun b q => ⟨⟨min b.lower.x q.x, min b.lower.y q.y⟩,
                   ⟨max b.upper.x q.x, max b.upper.y q.y⟩⟩)
      (Aabb.fromPoint c))

/-- structures.rs ParcelGeometry::envelope: the bounding rectangle when it
exists, the degenerate box at the origin otherwise. -/
def ParcelGeometry.envelope (g : ParcelGeometry) : Aabb :=
  match boundingRect g.coords with
  | some r => r
  | none => Aabb.fromPoint ⟨0, 0⟩

/-- One row of a staging parcel parquet file. -/
structure ParcelRow where
  idCol : ColVal
  codeCol : ColVal
  geomParse : Option GeoGeometry
  deriving DecidableEq, Repr

/-- loader.rs load_parcels, row loop (lines 28 to 58): a column coercion
failure or a WKB parse failure aborts the whole load with an error; a row of
unsupported geometry type is skipped; every other row is stored with the
envelope of its geometry. -/
def loadParcels : List ParcelRow → Except String (List (ParcelData ParcelGeometry))
  | [] => .ok []
  | row :: rest =>
    match getStringOrLong row.idCol with
    | none => .error "Parcel id column is neither string nor long"
    | some id =>
      match getStringOrLong row.codeCol with
      | none => .error "Parcel code_insee column is neither string nor long"
      | some code =>
        match row.geomParse with
        | none => .error ("Failed to parse WKB for parcel " ++ id)
        | some (.polygon cs) =>
          (loadParcels rest).map (fun ps =>
            ⟨id, code, ParcelGeometry.polygon cs,
              (ParcelGeometry.polygon cs).envelope⟩ :: ps)
        | some (.multiPolygon cs) =>
          (loadParcels rest).map (fun ps =>
            ⟨id, code, ParcelGeometry.multiPolygon cs,
              (ParcelGeometry.multiPolygon cs).envelope⟩ :: ps)
        | some _ => loadParcels rest

/-- One row of a staging address parquet file. -/
structure AddressRow where
  idCol : ColVal
  codeCol : ColVal
  geomParse : Option GeoGeometry
  linkCol : ColVal
  deriving DecidableEq, Repr

/-- ASCII lowercase of one character, for eq_ignore_ascii_case. -/
def asciiLower (c : Char) : Char :=
  if 'A' ≤ c ∧ c ≤ 'Z' then Char.ofNat (c.toNat + 32) else c

/-- str::eq_ignore_ascii_case against a lowercase pattern. -/
def eqIgnoreAsciiCase (s t : String) : Bool :=
  s.data.map asciiLower == t.data.map asciiLower

/-- loader.rs load_addresses, row loop (lines 68 to 103): same error policy as
load_parcels — parse failures abort, non-point geometries are skipped — and
the existing_link cell is trimmed, with empty or literal null meaning absent. -/
def loadAddresses : List AddressRow → Except String (List AddressInput)
  | [] => .ok []
  | row :: rest =>
    match getStringOrLong row.idCol with
    | none => .error "Address id column is neither string nor long"
    | some id =>
      match getStringOrLong row.codeCol with
      | none => .error "Address code_insee column is neither string nor long"
      | some code =>
        match row.geomParse with
        | none => .error ("Failed to parse WKB for address " ++ id)
        | some (.point p) =>
          let existingLink := (getStringOrLong row.linkCol).bind (fun s =>
            let sTrim := rustTrim s
            if sTrim = "" ∨ eqIgnoreAsciiCase sTrim "null" then none
            else some sTrim)
          (loadAddresses rest).map (fun as => ⟨id, code, p, existingLink⟩ :: as)
        | some _ => loadAddresses rest

/-! National aggregator model (pipeline/aggregate.rs). The filesystem is the
list of file names in the output directory; the embedded SQL engine is
modelled by its documented behaviour that a read over a glob matching no
files raises an error, while the COPY statements over nonempty input sets of
this stage succeed. -/

/-- pipeline/aggregate.rs AggregateOutcome; the partiality flag field of the
source is named incomplete here. -/
structure AggregateOutcome where
  generated : List String
  missing_inputs : List String
  incomplete : Bool
  deriving DecidableEq, Repr

/-- Leading-match test over character lists, as str::starts_with. -/
def listLeadMatch : List Char → List Char → Bool
  | [], _ => true
  | _ :: _, [] => false
  | a :: as, b :: bs => a == b && listLeadMatch as bs

/-- Insertion pass of the name sort of list_matching_files. -/
def insertSorted (s : String) : List String → List String
  | [] => [s]
  | t :: ts => if s.data ≤ t.data then s :: t :: ts else t :: insertSorted s ts

/-- pipeline/aggregate.rs list_matching_files: the file names that carry the
given leading and trailing patterns, sorted ascending. -/
def listMatchingFiles (files : List String) (pat suf : String) : List String :=
  (files.filter (fun n =>
    listLeadMatch pat.data n.data && listLeadMatch suf.data.reverse n.data.reverse)).foldr
    insertSorted []

/-- The SQL engine executing a COPY whose source reads the given matching
files: an empty glob raises an IO error, per the engine documentation. -/
def copyGlob (matching : List String) : Except String Unit :=
  if matching.isEmpty then .error "No files found that match the pattern"
  else .ok ()

/-- One guarded artifact family of step_aggregate: a missing input set yields
its glob marker, otherwise the COPY runs and the target is generated. -/
def familyStep (inputs : List String) (pat target : String) :
    Except String (List String × List String) :=
  if inputs.isEmpty then .ok ([pat], [])
  else (copyGlob inputs).map (fun _ => ([], [target]))

/-- pipeline/aggregate.rs step_aggregate. The parquet half of the first family
is guarded and pushes nothing into generated, exactly as the source; the COPY
producing france_parcelles_adresses.csv then runs unconditionally over the
same glob (source lines 71 to 87); the remaining three families are guarded. -/
def stepAggregate (dirExists : Bool) (files : List String) :
    Except String AggregateOutcome := do
  if dirExists = false then
    return { generated := [], missing_inputs := ["output_dir_missing"],
             incomplete := true }
  let paInputs := listMatchingFiles files "parcelles_adresses_" ".parquet"
  let (m1, _) ← familyStep paInputs "parcelles_adresses_*.parquet"
    "france_parcelles_adresses.parquet"
  let _ ← copyGlob paInputs
  let tiersInputs := listMatchingFiles files "qa_distance_tiers_" ".csv"
  let (m2, g2) ← familyStep tiersInputs "qa_distance_tiers_*.csv"
    "national_qa_distance_tiers.csv"
  let precInputs := listMatchingFiles files "qa_precision_" ".csv"
  let (m3, g3) ← familyStep precInputs "qa_precision_*.csv"
    "national_qa_precision.csv"
  let worstInputs := listMatchingFiles files "qa_worst_communes_" ".csv"
  let (m4, g4) ← familyStep worstInputs "qa_worst_communes_*.csv"
    "national_worst_communes_top100.csv"
  let missing := m1 ++ m2 ++ m3 ++ m4
  return { generated := g2 ++ g3 ++ g4, missing_inputs := missing,
           incomplete := !missing.isEmpty }

/-! QA precision artifact model (pipeline/qa.rs lines 242 to 284). The SQL
query groups the BorderNear match rows into four distance bins, left-joins
the fixed bin list so empty bins keep a zero row, and orders by the fixed bin
rank; its result is the per-bin count sequence below. -/

/-- Bin label of one distance in the qa_precision query. -/
def precBin (d : ℚ) : String :=
  if d ≤ 5 then "0-5" else if d ≤ 15 then "5-15"
  else if d ≤ 50 then "15-50" else ">50"

/-- The fixed bin rows of the query, in output order. -/
def precBinLabels : List String := ["0-5", "5-15", "15-50", ">50"]

/-- Rows of qa_precision_<dept>.csv computed from the match view. -/
def qaPrecision (ms : List MatchOutput) : List (String × ℕ) :=
  precBinLabels.map (fun b =>
    (b, (ms.filter (fun m =>
      decide (m.match_type = MatchType.BorderNear ∧ precBin m.distance_m = b))).length))

/-- Spec-described bin label of one distance for qa_precision (spec section
4.6), under the same inclusive-upper-edge convention as the code bins. -/
def specPrecBin (d : ℚ) : String :=
  if d ≤ 1 then "0-1" else if d ≤ 2 then "1-2" else if d ≤ 5 then "2-5"
  else if d ≤ 10 then "5-10" else if d ≤ 15 then "10-15"
  else if d ≤ 25 then "15-25" else if d ≤ 50 then "25-50"
  else if d ≤ 100 then "50-100" else if d ≤ 250 then "100-250"
  else if d ≤ 500 then "250-500" else if d ≤ 1000 then "500-1000"
  else if d ≤ 1500 then "1000-1500" else ">1500"

/-- Spec-described bin list for qa_precision. -/
def specPrecBinLabels : List String :=
  ["0-1", "1-2", "2-5", "5-10", "10-15", "15-25", "25-50", "50-100",
   "100-250", "250-500", "500-1000", "1000-1500", ">1500"]

/-- Ascending (priority, distance_m, id_ban) comparison of the spec. -/
def priorityKeyLe (a b : MatchOutput) : Bool :=
  decide (matchTypePriority a.match_type < matchTypePriority b.match_type) ||
  (decide (matchTypePriority a.match_type = matchTypePriority b.match_type) &&
    (decide (a.distance_m < b.distance_m) ||
     (decide (a.distance_m = b.distance_m) && decide (a.id_ban ≤ b.id_ban))))

/-- Best record of a parcel under ascending (priority, distance_m, id_ban). -/
def bestOfGroup : List MatchOutput → Option MatchOutput
  | [] => none
  | m :: ms =>
    match bestOfGroup ms with
    | none => some m
    | some b => if priorityKeyLe m b then some m else some b

/-- Distinct parcel ids of a match list, in first-appearance order. -/
def parcelIdsOf (ms : List MatchOutput) : List String :=
  (ms.filterMap (·.id_parcelle)).dedup

/-- Spec-described best-per-parcel selection for qa_precision. -/
def specBestPerParcel (ms : List MatchOutput) : List MatchOutput :=
  (parcelIdsOf ms).filterMap (fun pid =>
    bestOfGroup (ms.filter (fun m => decide (m.id_parcelle = some pid))))

/-- Spec-described qa_precision rows: the distribution of the best-per-parcel
records over the thirteen bins, excluding PreExisting and Inside records. -/
def specQaPrecision (ms : List MatchOutput) : List (String × ℕ) :=
  let best := (specBestPerParcel ms).filter (fun m =>
    decide (m.match_type ≠ MatchType.PreExisting ∧ m.match_type ≠ MatchType.Inside))
  specPrecBinLabels.map (fun b =>
    (b, (best.filter (fun m => decide (specPrecBin m.distance_m = b))).length))

/-! Helper lemmas on the enumeration and the emission shapes of the three
stages. -/

theorem mem_enumIdx {α : Type} {l : List α} :
    ∀ {n : ℕ} {x : ℕ × α}, x ∈ enumIdx n l → n ≤ x.1 ∧ x.2 ∈ l := by
  induction l with
  | nil => intro n x h; simp [enumIdx] at h
  | cons a as ih =>
    intro n x h
    simp only [enumIdx, List.mem_cons] at h
    rcases h with h | h
    · subst h; exact ⟨le_refl _, by simp⟩
    · rcases ih h with ⟨h1, h2⟩
      exact ⟨le_trans (Nat.le_succ n) h1, by simp [h2]⟩

theorem mem_enumerate_snd {α : Type} {l : List α} {x : ℕ × α}
    (h : x ∈ enumerate l) : x.2 ∈ l :=
  (mem_enumIdx h).2

theorem mem_enumIdx_of_mem {α : Type} {l : List α} {a : α} (h : a ∈ l) :
    ∀ n : ℕ, ∃ i, (i, a) ∈ enumIdx n l := by
  induction l with
  | nil => simp at h
  | cons b bs ih =>
    intro n
    rcases List.mem_cons.mp h with h | h
    · exact ⟨n, by simp [enumIdx, h]⟩
    · rcases ih h (n + 1) with ⟨i, hi⟩
      exact ⟨i, by simp [enumIdx, hi]⟩

theorem mem_enumerate_of_mem {α : Type} {l : List α} {a : α} (h : a ∈ l) :
    ∃ i, (i, a) ∈ enumerate l :=
  mem_enumIdx_of_mem h 0

theorem enumIdx_fst_inj {α : Type} {l : List α} :
    ∀ {n : ℕ} {x y : ℕ × α}, x ∈ enumIdx n l → y ∈ enumIdx n l →
      x.1 = y.1 → x = y := by
  induction l with
  | nil => intro n x y hx; simp [enumIdx] at hx
  | cons a as ih =>
    intro n x y hx hy hxy
    simp only [enumIdx, List.mem_cons] at hx hy
    rcases hx with hx | hx <;> rcases hy with hy | hy
    · rw [hx, hy]
    · exfalso
      have h1 := (mem_enumIdx hy).1
      rw [hx] at hxy
      simp only at hxy
      omega
    · exfalso
      have h1 := (mem_enumIdx hx).1
      rw [hy] at hxy
      simp only at hxy
      omega
    · exact ih hx hy hxy

theorem preexistingPairs_mem {addresses : List AddressInput}
    {known : List String} {e : String × MatchOutput}
    (h : e ∈ preexistingPairs addresses known) :
    e.1 ∈ known ∧ ∃ a ∈ addresses,
      e.2 = MatchOutput.new a.id (some e.1) MatchType.PreExisting 0 := by
  simp only [preexistingPairs, List.mem_flatMap] at h
  rcases h with ⟨a, ha, he⟩
  cases hl : a.existing_link with
  | none => rw [hl] at he; simp at he
  | some links =>
    rw [hl] at he
    simp only [List.mem_filterMap] at he
    rcases he with ⟨tok, _, htok⟩
    by_cases h1 : rustTrim tok = ""
    · simp [h1] at htok
    · by_cases h2 : rustTrim tok ∈ known
      · simp only [h1, if_false, h2, if_true] at htok
        cases htok
        exact ⟨h2, a, ha, rfl⟩
      · simp [h1, h2] at htok

theorem preexistingMapGet_mem {addresses : List AddressInput}
    {known : List String} {pid : String} {m : MatchOutput}
    (h : m ∈ preexistingMapGet addresses known pid) :
    pid ∈ known ∧ ∃ a ∈ addresses,
      m = MatchOutput.new a.id (some pid) MatchType.PreExisting 0 := by
  simp only [preexistingMapGet, List.mem_map, List.mem_filter] at h
  rcases h with ⟨e, ⟨he, heq⟩, hm⟩
  have heq' : e.1 = pid := of_decide_eq_true heq
  rcases preexistingPairs_mem he with ⟨hk, a, ha, hrec⟩
  subst hm
  rw [heq'] at hk hrec
  exact ⟨hk, a, ha, hrec⟩

theorem step1ForParcel_mem {G : Type} {dist : G → Pt → ℚ}
    {addresses : List AddressInput} {known : List String}
    {parcel : ParcelData G} {m : MatchOutput}
    (h : m ∈ step1ForParcel dist addresses known parcel) :
    ∃ a ∈ addresses,
      (m = MatchOutput.new a.id (some parcel.id) MatchType.PreExisting 0 ∧
        parcel.id ∈ known) ∨
      m = MatchOutput.new a.id (some parcel.id) MatchType.Inside 0 := by
  simp only [step1ForParcel, List.mem_append] at h
  rcases h with h | h
  · rcases preexistingMapGet_mem h with ⟨hk, a, ha, hrec⟩
    exact ⟨a, ha, Or.inl ⟨hrec, hk⟩⟩
  · simp only [List.mem_filterMap] at h
    rcases h with ⟨a, ha, hm⟩
    have ha' : a ∈ addresses := List.mem_of_mem_filter ha
    by_cases h1 : a.id ∈ (preexistingMapGet addresses known parcel.id).map (·.id_ban)
    · simp [h1] at hm
    · by_cases h2 : isInsideOrOnBorder dist parcel a.geom
      · simp only [h1, if_false, h2, if_true] at hm
        cases hm
        exact ⟨a, ha', Or.inr rfl⟩
      · simp [h1, h2] at hm

theorem step2Loop_mem {G : Type} {dist : G → Pt → ℚ} {thr : ℚ} {pt : Pt} :
    ∀ {walk : List (ParcelData G)} {b : Option (ParcelData G × ℚ)}
      {p : ParcelData G} {d : ℚ},
      step2Loop dist thr pt walk b = some (p, d) →
      b = some (p, d) ∨
        (p ∈ walk ∧ d = dist p.geom pt ∧ insideEps < d ∧ d ≤ thr) := by
  intro walk
  induction walk with
  | nil => intro b p d h; exact Or.inl h
  | cons q rest ih =>
    intro b p d h
    simp only [step2Loop] at h
    by_cases hbreak : parcelNodeDist2 dist q pt > thr * thr
    · rw [if_pos hbreak] at h; exact Or.inl h
    · rw [if_neg hbreak] at h
      by_cases hskip : dist q.geom pt ≤ insideEps ∨ dist q.geom pt > thr
      · rw [if_pos hskip] at h
        rcases ih h with h' | h'
        · exact Or.inl h'
        · exact Or.inr ⟨List.mem_cons_of_mem _ h'.1, h'.2⟩
      · rw [if_neg hskip] at h
        push_neg at hskip
        cases b with
        | none =>
          rcases ih h with h' | h'
          · cases h'
            exact Or.inr ⟨List.mem_cons_self _ _, rfl, hskip.1, hskip.2⟩
          · exact Or.inr ⟨List.mem_cons_of_mem _ h'.1, h'.2⟩
        | some qb =>
          obtain ⟨q1, bd⟩ := qb
          dsimp only at h
          by_cases himp : dist q.geom pt < bd
          · rw [if_pos himp] at h
            rcases ih h with h' | h'
            · cases h'
              exact Or.inr ⟨List.mem_cons_self _ _, rfl, hskip.1, hskip.2⟩
            · exact Or.inr ⟨List.mem_cons_of_mem _ h'.1, h'.2⟩
          · rw [if_neg himp] at h
            rcases ih h with h' | h'
            · rw [← h']; exact Or.inl rfl
            · exact Or.inr ⟨List.mem_cons_of_mem _ h'.1, h'.2⟩

theorem step2ForAddress_some {G : Type} {dist : G → Pt → ℚ}
    {walk : List (ParcelData G)} {thr : ℚ} {addr : AddressInput}
    {m : MatchOutput} (h : step2ForAddress dist walk thr addr = some m) :
    ∃ p ∈ walk, ∃ d : ℚ,
      m = MatchOutput.new addr.id (some p.id) MatchType.BorderNear d ∧
      d = dist p.geom addr.geom ∧ insideEps < d ∧ d ≤ thr := by
  unfold step2ForAddress at h
  cases hl : step2Loop dist thr addr.geom walk none with
  | none => rw [hl] at h; simp at h
  | some pd =>
    rw [hl] at h
    simp only [Option.some.injEq] at h
    rcases step2Loop_mem hl with h' | h'
    · simp at h'
    · exact ⟨pd.1, h'.1, pd.2, h.symm, h'.2⟩

/-- Weak soundness of a Stage 3 loop state: any recorded best is a real
address at its exact distance, within the fallback ceiling. -/
def BestSound {G : Type} (dist : G → Pt → ℚ) (parcel : ParcelData G)
    (addresses : List AddressInput) (dmax : ℚ) (st : Step3St) : Prop :=
  ∀ i d aid, st.best = some (i, d, aid) →
    ∃ a ∈ addresses, aid = a.id ∧ d = dist parcel.geom a.geom ∧ d ≤ dmax

theorem step3Consider_bestSound {G : Type} {dist : G → Pt → ℚ}
    {parcel : ParcelData G} {addresses : List AddressInput} {dmax : ℚ}
    {st : Step3St} {ia : ℕ × AddressInput} (hia : ia.2 ∈ addresses)
    (h : BestSound dist parcel addresses dmax st) :
    BestSound dist parcel addresses dmax (step3Consider dist dmax parcel st ia) := by
  unfold step3Consider
  by_cases h0 : ia.1 ∈ st.seen
  · simpa [h0]
  · rw [if_neg h0]
    set st1 : Step3St := { st with seen := ia.1 :: st.seen, anyNew := true } with hst1
    have hs1 : BestSound dist parcel addresses dmax st1 := by
      intro i d aid hb
      exact h i d aid hb
    by_cases hskip : (match st1.best with
        | some (_, bd, _) => decide (parcel.envelope.dist2 ia.2.geom ≥ bd * bd)
        | none => false) = true
    · simpa [hskip] using hs1
    · rw [if_neg (by simpa using hskip)]
      by_cases hfar : dist parcel.geom ia.2.geom > dmax
      · simpa [hfar] using hs1
      · rw [if_neg hfar]
        by_cases hbetter : (match st1.best with
            | none => true
            | some (_, bd, bid) =>
              if dist parcel.geom ia.2.geom < bd then true
              else if dist parcel.geom ia.2.geom = bd then decide (ia.2.id < bid)
              else false) = true
        · rw [if_pos hbetter]
          intro i d aid hb
          simp only [Option.some.injEq, Prod.mk.injEq] at hb
          obtain ⟨rfl, rfl, rfl⟩ := hb
          exact ⟨ia.2, hia, rfl, rfl, le_of_not_lt hfar⟩
        · rw [if_neg hbetter]
          exact hs1

theorem step3Fold_bestSound {G : Type} {dist : G → Pt → ℚ}
    {parcel : ParcelData G} {addresses : List AddressInput} {dmax : ℚ} :
    ∀ {l : List (ℕ × AddressInput)} {st : Step3St},
      (∀ x ∈ l, x.2 ∈ addresses) →
      BestSound dist parcel addresses dmax st →
      BestSound dist parcel addresses dmax
        (l.foldl (step3Consider dist dmax parcel) st) := by
  intro l
  induction l with
  | nil => intro st _ h; exact h
  | cons x xs ih =>
    intro st hl h
    simp only [List.foldl_cons]
    exact ih (fun y hy => hl y (List.mem_cons_of_mem _ hy))
      (step3Consider_bestSound (hl x (List.mem_cons_self _ _)) h)

theorem step3Loop_bestSound {G : Type} {dist : G → Pt → ℚ}
    {parcel : ParcelData G} {addresses : List AddressInput} {dmax : ℚ} :
    ∀ {fuel : ℕ} {r : ℚ} {st st' : Step3St},
      step3Loop dist dmax parcel addresses fuel r st = some st' →
      BestSound dist parcel addresses dmax st →
      BestSound dist parcel addresses dmax st' := by
  intro fuel
  induction fuel with
  | zero => intro r st st' h; simp [step3Loop] at h
  | succ fuel ih =>
    intro r st st' h hs
    rw [step3Loop] at h
    by_cases hg : r > dmax
    · rw [if_pos hg] at h
      cases h
      exact hs
    · rw [if_neg hg] at h
      set stf := (locateInEnvelopeIdx addresses
        (expandAabb parcel.envelope r)).foldl (step3Consider dist dmax parcel)
        { st with anyNew := false } with hstf
      have hsf : BestSound dist parcel addresses dmax stf := by
        apply step3Fold_bestSound
        · intro x hx
          exact mem_enumerate_snd (List.mem_of_mem_filter hx)
        · intro i d aid hb
          exact hs i d aid hb
      by_cases h1 : (match stf.best with
          | some (_, bd, _) => decide (bd ≤ r)
          | none => false) = true
      · rw [if_pos h1] at h
        simp only [Option.some.injEq] at h
        exact h ▸ hsf
      · rw [if_neg h1] at h
        by_cases h2 : (!stf.anyNew && decide (r ≥ dmax)) = true
        · rw [if_pos h2] at h
          simp only [Option.some.injEq] at h
          exact h ▸ hsf
        · rw [if_neg h2] at h
          by_cases h3 : (match stf.best with
              | some (_, bd, _) => if bd > r then min bd dmax else min (r * 2) dmax
              | none => min (r * 2) dmax) ≤ r
          · rw [if_pos h3] at h
            simp only [Option.some.injEq] at h
            exact h ▸ hsf
          · rw [if_neg h3] at h
            exact ih h hsf

/-- Shape of a Stage 3 emission: an Inside record at distance zero, or a
FallbackNearest record carrying the exact distance of one of the addresses,
within the fallback ceiling and above insideEps. -/
theorem step3ForParcel_some {G : Type} {dist : G → Pt → ℚ} {cfg : MatchConfig}
    {addresses : List AddressInput} {parcel : ParcelData G} {fuel : ℕ}
    {m : MatchOutput} (h : step3ForParcel dist cfg addresses parcel fuel = some m) :
    ∃ a ∈ addresses,
      (m = MatchOutput.new a.id (some parcel.id) MatchType.Inside 0 ∧
        dist parcel.geom a.geom ≤ insideEps) ∨
      (m = MatchOutput.new a.id (some parcel.id) MatchType.FallbackNearest
          (dist parcel.geom a.geom) ∧
        insideEps < dist parcel.geom a.geom ∧
        dist parcel.geom a.geom ≤ cfg.fallback_max_distance_m) := by
  unfold step3ForParcel at h
  cases hl : step3Loop dist cfg.fallback_max_distance_m parcel addresses fuel
      (max cfg.fallback_envelope_expand_m 5) ⟨[], none, false⟩ with
  | none => rw [hl] at h; simp at h
  | some st =>
    rw [hl] at h
    dsimp only at h
    have hs : BestSound dist parcel addresses cfg.fallback_max_distance_m st := by
      apply step3Loop_bestSound hl
      intro i d aid hb
      simp at hb
    cases hb : st.best with
    | none => rw [hb] at h; simp at h
    | some b =>
      obtain ⟨i, bd, aid⟩ := b
      rw [hb] at h
      rcases hs i bd aid hb with ⟨a, ha, rfl, rfl, hle⟩
      dsimp only at h
      by_cases heps : dist parcel.geom a.geom ≤ insideEps
      · rw [if_pos heps] at h
        cases h
        exact ⟨a, ha, Or.inl ⟨rfl, heps⟩⟩
      · rw [if_neg heps] at h
        cases h
        exact ⟨a, ha, Or.inr ⟨rfl, lt_of_not_le heps, hle⟩⟩

/-- Case analysis of the records emitted by the three-stage matcher: every
record is built by MatchOutput.new at one of the four emission sites. -/
theorem matcher_mem {G : Type} {dist : G → Pt → ℚ}
    {nn : AddressInput → List (ParcelData G)} {parcels : List (ParcelData G)}
    {addresses : List AddressInput} {cfg : MatchConfig} {fuel : ℕ}
    {m : MatchOutput}
    (h : m ∈ matchParcelsAndAddresses3Steps dist nn parcels addresses cfg fuel) :
    (∃ parcel ∈ parcels, ∃ a ∈ addresses,
      m = MatchOutput.new a.id (some parcel.id) MatchType.PreExisting 0 ∨
      m = MatchOutput.new a.id (some parcel.id) MatchType.Inside 0) ∨
    (∃ a ∈ addresses, ∃ p ∈ nn a,
      m = MatchOutput.new a.id (some p.id) MatchType.BorderNear
        (dist p.geom a.geom) ∧
      insideEps < dist p.geom a.geom ∧
      dist p.geom a.geom ≤ cfg.address_max_distance_m) ∨
    (∃ parcel ∈ parcels, ∃ a ∈ addresses,
      m = MatchOutput.new a.id (some parcel.id) MatchType.Inside 0 ∨
      (m = MatchOutput.new a.id (some parcel.id) MatchType.FallbackNearest
          (dist parcel.geom a.geom) ∧
        insideEps < dist parcel.geom a.geom ∧
        dist parcel.geom a.geom ≤ cfg.fallback_max_distance_m)) := by
  unfold matchParcelsAndAddresses3Steps at h
  simp only [List.mem_append] at h
  rcases h with (h | h) | h
  · left
    simp only [List.mem_flatMap] at h
    rcases h with ⟨parcel, hp, hm⟩
    rcases step1ForParcel_mem hm with ⟨a, ha, hcase⟩
    rcases hcase with ⟨hrec, _⟩ | hrec
    · exact ⟨parcel, hp, a, ha, Or.inl hrec⟩
    · exact ⟨parcel, hp, a, ha, Or.inr hrec⟩
  · right; left
    simp only [List.mem_filterMap] at h
    rcases h with ⟨a, ha, hm⟩
    rcases step2ForAddress_some hm with ⟨p, hp, d, hrec, hd, h1, h2⟩
    subst hd
    exact ⟨a, ha, p, hp, hrec, h1, h2⟩
  · right; right
    simp only [List.mem_filterMap] at h
    rcases h with ⟨ip, hip, hm⟩
    have hp : ip.2 ∈ parcels := mem_enumerate_snd (List.mem_of_mem_filter hip)
    rcases step3ForParcel_some hm with ⟨a, ha, hcase⟩
    rcases hcase with ⟨hrec, _⟩ | ⟨hrec, h1, h2⟩
    · exact ⟨ip.2, hp, a, ha, Or.inl hrec⟩
    · exact ⟨ip.2, hp, a, ha, Or.inr ⟨hrec, h1, h2⟩⟩

/-- C5. For every record emitted by the matcher, the confidence field is the
stated pure function of match_type and distance_m: PreExisting yields 100,
Inside 90, BorderNear 80 below five meters and 70 otherwise, FallbackNearest
50; the sentinel None never occurs. -/
theorem confidence_pure_function {G : Type} (dist : G → Pt → ℚ)
    (nn : AddressInput → List (ParcelData G)) (parcels : List (ParcelData G))
    (addresses : List AddressInput) (cfg : MatchConfig) (fuel : ℕ)
    (m : MatchOutput)
    (h : m ∈ matchParcelsAndAddresses3Steps dist nn parcels addresses cfg fuel) :
    m.match_type ≠ MatchType.None ∧
    (m.match_type = MatchType.PreExisting → m.confidence = 100) ∧
    (m.match_type = MatchType.Inside → m.confidence = 90) ∧
    (m.match_type = MatchType.BorderNear →
      m.confidence = if m.distance_m < 5 then 80 else 70) ∧
    (m.match_type = MatchType.FallbackNearest → m.confidence = 50) := by
  rcases matcher_mem h with ⟨_, _, a, _, hm | hm⟩ | ⟨a, _, p, _, hm, _⟩ |
      ⟨parcel, _, a, _, hm | ⟨hm, _⟩⟩ <;>
    subst hm <;> simp [MatchOutput.new]

/-- Closed instance for C5: the single Inside record of a one-parcel,
one-address department carries confidence 90. -/
theorem confidence_pure_function_witness :
    ((matchParcelsAndAddresses3Steps (fun (_ : Unit) _ => (0 : ℚ))
        (fun _ => [⟨"P", "c", (), ⟨⟨0, 0⟩, ⟨1, 1⟩⟩⟩])
        [⟨"P", "c", (), ⟨⟨0, 0⟩, ⟨1, 1⟩⟩⟩]
        [⟨"a1", "c", ⟨0, 0⟩, none⟩] ⟨50, 1500, 50⟩ 8).head?.elim True
      (fun m => m.match_type ≠ MatchType.None ∧ m.confidence = 90)) := by
  have hrun : matchParcelsAndAddresses3Steps (fun (_ : Unit) _ => (0 : ℚ))
      (fun _ => [⟨"P", "c", (), ⟨⟨0, 0⟩, ⟨1, 1⟩⟩⟩])
      [⟨"P", "c", (), ⟨⟨0, 0⟩, ⟨1, 1⟩⟩⟩]
      [⟨"a1", "c", ⟨0, 0⟩, none⟩] ⟨50, 1500, 50⟩ 8 =
      [MatchOutput.new "a1" (some "P") MatchType.Inside 0] := by
    norm_num +decide [matchParcelsAndAddresses3Steps, step1ForParcel,
      step2ForAddress, step2Loop, preexistingMapGet, preexistingPairs,
      locateInEnvelope, Aabb.containsPt, markedIndices, parcelIdxById,
      enumerate, enumIdx, isInsideOrOnBorder, insideEps, parcelNodeDist2,
      MatchOutput.new]
  have hmem : MatchOutput.new "a1" (some "P") MatchType.Inside 0 ∈
      matchParcelsAndAddresses3Steps (fun (_ : Unit) _ => (0 : ℚ))
      (fun _ => [⟨"P", "c", (), ⟨⟨0, 0⟩, ⟨1, 1⟩⟩⟩])
      [⟨"P", "c", (), ⟨⟨0, 0⟩, ⟨1, 1⟩⟩⟩]
      [⟨"a1", "c", ⟨0, 0⟩, none⟩] ⟨50, 1500, 50⟩ 8 := by
    rw [hrun]; exact List.mem_singleton.mpr rfl
  have hc := confidence_pure_function (fun (_ : Unit) _ => (0 : ℚ))
    (fun _ => [⟨"P", "c", (), ⟨⟨0, 0⟩, ⟨1, 1⟩⟩⟩])
    [⟨"P", "c", (), ⟨⟨0, 0⟩, ⟨1, 1⟩⟩⟩]
    [⟨"a1", "c", ⟨0, 0⟩, none⟩] ⟨50, 1500, 50⟩ 8 _ hmem
  rw [hrun]
  simp only [List.head?]
  exact ⟨hc.1, hc.2.2.1 (by simp [MatchOutput.new])⟩

/-- C10. Every record returned by match_parcels_and_addresses_3_steps carries
the id of a parcel of the input store in id_parcelle (never none), one of the
four real match types (never the sentinel None), and a nonnegative distance —
finite by construction in this exact model. The hypotheses state that the
geometric distance is nonnegative and that the Stage 2 walk only yields
parcels of the store, as the R-tree built over the store guarantees. -/
theorem matcher_output_invariants {G : Type} (dist : G → Pt → ℚ)
    (nn : AddressInput → List (ParcelData G)) (parcels : List (ParcelData G))
    (addresses : List AddressInput) (cfg : MatchConfig) (fuel : ℕ)
    (m : MatchOutput)
    (Hnn : ∀ (g : G) (p : Pt), 0 ≤ dist g p)
    (Hwalk : ∀ a : AddressInput, ∀ p ∈ nn a, p ∈ parcels)
    (h : m ∈ matchParcelsAndAddresses3Steps dist nn parcels addresses cfg fuel) :
    (∃ p ∈ parcels, m.id_parcelle = some p.id) ∧
    (m.match_type = MatchType.PreExisting ∨ m.match_type = MatchType.Inside ∨
      m.match_type = MatchType.BorderNear ∨
      m.match_type = MatchType.FallbackNearest) ∧
    0 ≤ m.distance_m := by
  rcases matcher_mem h with ⟨parcel, hp, a, _, hm | hm⟩ | ⟨a, _, p, hp, hm, h1, _⟩ |
      ⟨parcel, hp, a, _, hm | ⟨hm, h1, _⟩⟩
  · subst hm; exact ⟨⟨parcel, hp, rfl⟩, Or.inl rfl, le_refl 0⟩
  · subst hm; exact ⟨⟨parcel, hp, rfl⟩, Or.inr (Or.inl rfl), le_refl 0⟩
  · subst hm
    exact ⟨⟨p, Hwalk a p hp, rfl⟩, Or.inr (Or.inr (Or.inl rfl)),
      Hnn p.geom a.geom⟩
  · subst hm; exact ⟨⟨parcel, hp, rfl⟩, Or.inr (Or.inl rfl), le_refl 0⟩
  · subst hm
    exact ⟨⟨parcel, hp, rfl⟩, Or.inr (Or.inr (Or.inr rfl)),
      Hnn parcel.geom a.geom⟩

/-- Closed instance for C10: the record emitted for a department with one
parcel and one interior address references the parcel and has a real type. -/
theorem matcher_output_invariants_witness :
    (∃ p ∈ [(⟨"P", "c", (), ⟨⟨0, 0⟩, ⟨1, 1⟩⟩⟩ : ParcelData Unit)],
      (MatchOutput.new "a1" (some "P") MatchType.Inside 0).id_parcelle = some p.id) ∧
    ((MatchOutput.new "a1" (some "P") MatchType.Inside 0).match_type =
        MatchType.PreExisting ∨
      (MatchOutput.new "a1" (some "P") MatchType.Inside 0).match_type =
        MatchType.Inside ∨
      (MatchOutput.new "a1" (some "P") MatchType.Inside 0).match_type =
        MatchType.BorderNear ∨
      (MatchOutput.new "a1" (some "P") MatchType.Inside 0).match_type =
        MatchType.FallbackNearest) ∧
    (0 : ℚ) ≤ (MatchOutput.new "a1" (some "P") MatchType.Inside 0).distance_m := by
  have hrun : matchParcelsAndAddresses3Steps (fun (_ : Unit) _ => (0 : ℚ))
      (fun _ => [⟨"P", "c", (), ⟨⟨0, 0⟩, ⟨1, 1⟩⟩⟩])
      [⟨"P", "c", (), ⟨⟨0, 0⟩, ⟨1, 1⟩⟩⟩]
      [⟨"a1", "c", ⟨0, 0⟩, none⟩] ⟨50, 1500, 50⟩ 8 =
      [MatchOutput.new "a1" (some "P") MatchType.Inside 0] := by
    norm_num +decide [matchParcelsAndAddresses3Steps, step1ForParcel,
      step2ForAddress, step2Loop, preexistingMapGet, preexistingPairs,
      locateInEnvelope, Aabb.containsPt, markedIndices, parcelIdxById,
      enumerate, enumIdx, isInsideOrOnBorder, insideEps, parcelNodeDist2,
      MatchOutput.new]
  exact matcher_output_invariants (fun (_ : Unit) _ => (0 : ℚ))
    (fun _ => [⟨"P", "c", (), ⟨⟨0, 0⟩, ⟨1, 1⟩⟩⟩])
    [⟨"P", "c", (), ⟨⟨0, 0⟩, ⟨1, 1⟩⟩⟩]
    [⟨"a1", "c", ⟨0, 0⟩, none⟩] ⟨50, 1500, 50⟩ 8 _
    (fun _ _ => le_refl 0)
    (fun _ p hp => hp)
    (by rw [hrun]; exact List.mem_singleton.mpr rfl)

/-- C8. Evaluation of step_aggregate at the failing input: an existing output
directory holding no per-department files. The unguarded COPY that produces
france_parcelles_adresses.csv runs over an empty glob and the engine error
aborts the aggregator, so the call returns an error instead of the partial
success the specification requires; with the first family present and all
others missing, the three guarded families do tolerate their missing inputs
and only record markers. -/
theorem step_aggregate_missing_csv_inputs_error :
    stepAggregate true [] =
      Except.error "No files found that match the pattern" ∧
    stepAggregate true ["parcelles_adresses_01.parquet"] =
      Except.ok ⟨[], ["qa_distance_tiers_*.csv", "qa_precision_*.csv",
        "qa_worst_communes_*.csv"], true⟩ := by
  constructor <;>
    norm_num +decide [stepAggregate, listMatchingFiles, listLeadMatch,
      insertSorted, familyStep, copyGlob, Bind.bind, Except.bind, Except.map,
      pure, Except.pure]

/-- Exactly one of the four qa_precision bins captures any distance. -/
theorem precBin_cases (d : ℚ) :
    (precBin d = "0-5" ∧ d ≤ 5) ∨
    (precBin d = "5-15" ∧ 5 < d ∧ d ≤ 15) ∨
    (precBin d = "15-50" ∧ 15 < d ∧ d ≤ 50) ∨
    (precBin d = ">50" ∧ 50 < d) := by
  by_cases h1 : d ≤ 5
  · exact Or.inl ⟨by simp [precBin, h1], h1⟩
  · by_cases h2 : d ≤ 15
    · exact Or.inr (Or.inl ⟨by simp [precBin, h1, h2], lt_of_not_le h1, h2⟩)
    · by_cases h3 : d ≤ 50
      · exact Or.inr (Or.inr (Or.inl
          ⟨by simp [precBin, h1, h2, h3], lt_of_not_le h2, h3⟩))
      · exact Or.inr (Or.inr (Or.inr
          ⟨by simp [precBin, h1, h2, h3], lt_of_not_le h3⟩))

/-- The four bin counts of qaPrecision sum to the number of BorderNear
records: the bins partition the BorderNear rows. -/
theorem qaPrecision_counts_partition (ms : List MatchOutput) :
    ((qaPrecision ms).map Prod.snd).sum =
      (ms.filter (fun m => decide (m.match_type = MatchType.BorderNear))).length := by
  induction ms with
  | nil => simp [qaPrecision, precBinLabels]
  | cons m ms ih =>
    by_cases hbn : m.match_type = MatchType.BorderNear
    · rcases precBin_cases m.distance_m with ⟨hb, _⟩ | ⟨hb, _⟩ | ⟨hb, _⟩ | ⟨hb, _⟩ <;>
        simp +decide [qaPrecision, precBinLabels, List.filter_cons, hbn, hb]
          at ih ⊢ <;> omega
    · simp +decide [qaPrecision, precBinLabels, List.filter_cons, hbn]
        at ih ⊢
      omega

/-- C9 amended. The qa_precision artifact lists the four bins 0-5, 5-15,
15-50 and greater-than-50 in that fixed order; each row counts every
BorderNear match record (no best-per-parcel selection, FallbackNearest rows
excluded along with PreExisting and Inside), and the four counts partition
the BorderNear records of the match file. -/
theorem qa_precision_border_near_histogram (ms : List MatchOutput) :
    (qaPrecision ms).map Prod.fst = precBinLabels ∧
    ((qaPrecision ms).map Prod.snd).sum =
      (ms.filter (fun m => decide (m.match_type = MatchType.BorderNear))).length ∧
    ∀ b : String, ∀ cnt : ℕ, (b, cnt) ∈ qaPrecision ms →
      cnt = (ms.filter (fun m => decide (m.match_type = MatchType.BorderNear ∧
        precBin m.distance_m = b))).length := by
  refine ⟨?_, qaPrecision_counts_partition ms, ?_⟩
  · simp [qaPrecision, precBinLabels]
  · intro b cnt h
    simp only [qaPrecision, List.mem_map] at h
    rcases h with ⟨lbl, _, heq⟩
    obtain ⟨rfl, rfl⟩ : lbl = b ∧ (ms.filter (fun m =>
        decide (m.match_type = MatchType.BorderNear ∧
          precBin m.distance_m = lbl))).length = cnt := by
      exact ⟨congrArg Prod.fst heq, congrArg Prod.snd heq⟩
    rfl

/-- Closed instance for C9 amended, at one BorderNear record of distance 30. -/
theorem qa_precision_border_near_histogram_witness :
    (qaPrecision [MatchOutput.new "a" (some "P") MatchType.BorderNear 30]).map
      Prod.fst = precBinLabels ∧
    ((qaPrecision [MatchOutput.new "a" (some "P") MatchType.BorderNear 30]).map
      Prod.snd).sum = 1 := by
  have h := qa_precision_border_near_histogram
    [MatchOutput.new "a" (some "P") MatchType.BorderNear 30]
  refine ⟨h.1, ?_⟩
  rw [h.2.1]
  norm_num [MatchOutput.new]

/-- C9 counterexample. On the empty match file the qa_precision rows are the
four zero-count code bins, not the thirteen spec bins of the best-per-parcel
distribution: the two artifacts differ already in their bin labels. -/
theorem qa_precision_spec_mismatch :
    qaPrecision [] ≠ specQaPrecision [] ∧
    (qaPrecision []).length = 4 ∧ (specQaPrecision []).length = 13 := by
  refine ⟨?_, ?_, ?_⟩ <;>
    simp [qaPrecision, specQaPrecision, precBinLabels, specPrecBinLabels,
      specBestPerParcel, parcelIdsOf]

/-! Loader theorems. -/

/-- Normalisation of a box: lower corner below upper corner in both axes. -/
def AabbNormalized (b : Aabb) : Prop :=
  b.lower.x ≤ b.upper.x ∧ b.lower.y ≤ b.upper.y

/-- The bounding-rectangle fold only grows the box and keeps it normalised. -/
theorem boundingRect_fold_spec :
    ∀ (cs : List Pt) (b : Aabb),
      (∀ p : Pt, b.containsPt p → (cs.foldl
        (fun b q => ⟨⟨min b.lower.x q.x, min b.lower.y q.y⟩,
                     ⟨max b.upper.x q.x, max b.upper.y q.y⟩⟩) b).containsPt p) ∧
      (∀ q ∈ cs, (cs.foldl
        (fun b q => ⟨⟨min b.lower.x q.x, min b.lower.y q.y⟩,
                     ⟨max b.upper.x q.x, max b.upper.y q.y⟩⟩) b).containsPt q) ∧
      (AabbNormalized b → AabbNormalized (cs.foldl
        (fun b q => ⟨⟨min b.lower.x q.x, min b.lower.y q.y⟩,
                     ⟨max b.upper.x q.x, max b.upper.y q.y⟩⟩) b)) := by
  intro cs
  induction cs with
  | nil =>
    intro b
    exact ⟨fun p hp => hp, by simp, fun h => h⟩
  | cons c cs ih =>
    intro b
    set b1 : Aabb := ⟨⟨min b.lower.x c.x, min b.lower.y c.y⟩,
      ⟨max b.upper.x c.x, max b.upper.y c.y⟩⟩ with hb1
    have hmono : ∀ p : Pt, b.containsPt p → b1.containsPt p := by
      intro p hp
      obtain ⟨h1, h2, h3, h4⟩ := hp
      exact ⟨le_trans (min_le_left _ _) h1, le_trans h2 (le_max_left _ _),
        le_trans (min_le_left _ _) h3, le_trans h4 (le_max_left _ _)⟩
    have hc : b1.containsPt c :=
      ⟨min_le_right _ _, le_max_right _ _, min_le_right _ _, le_max_right _ _⟩
    have hnorm : AabbNormalized b → AabbNormalized b1 := by
      intro ⟨h1, h2⟩
      constructor
      · exact le_trans (min_le_right _ _) (le_max_right _ _)
      · exact le_trans (min_le_right _ _) (le_max_right _ _)
    refine ⟨?_, ?_, ?_⟩
    · intro p hp
      simpa using (ih b1).1 p (hmono p hp)
    · intro q hq
      rcases List.mem_cons.mp hq with rfl | hq
      · simpa using (ih b1).1 q hc
      · simpa using (ih b1).2.1 q hq
    · intro hb
      simpa using (ih b1).2.2 (hnorm hb)

/-- Soundness of boundingRect: the rectangle contains every coordinate and is
normalised. -/
theorem boundingRect_some_spec {cs : List Pt} {r : Aabb}
    (h : boundingRect cs = some r) :
    (∀ c ∈ cs, r.containsPt c) ∧ AabbNormalized r := by
  cases cs with
  | nil => simp [boundingRect] at h
  | cons c cs =>
    simp only [boundingRect, Option.some.injEq] at h
    subst h
    have hspec := boundingRect_fold_spec cs (Aabb.fromPoint c)
    have hinit : (Aabb.fromPoint c).containsPt c := by
      exact ⟨le_refl _, le_refl _, le_refl _, le_refl _⟩
    refine ⟨?_, hspec.2.2 ⟨le_refl _, le_refl _⟩⟩
    intro q hq
    rcases List.mem_cons.mp hq with rfl | hq
    · exact hspec.1 q hinit
    · exact hspec.2.1 q hq

/-- Every parcel stored by the loader has its envelope computed by
ParcelGeometry::envelope. -/
theorem loadParcels_ok_envelope :
    ∀ {rows : List ParcelRow} {ps : List (ParcelData ParcelGeometry)},
      loadParcels rows = .ok ps → ∀ p ∈ ps, p.envelope = p.geom.envelope := by
  intro rows
  induction rows with
  | nil =>
    intro ps h p hp
    simp only [loadParcels, Except.ok.injEq] at h
    subst h
    simp at hp
  | cons row rest ih =>
    intro ps h p hp
    unfold loadParcels at h
    cases hid : getStringOrLong row.idCol with
    | none => rw [hid] at h; simp at h
    | some id =>
      rw [hid] at h
      cases hcode : getStringOrLong row.codeCol with
      | none => rw [hcode] at h; simp at h
      | some code =>
        rw [hcode] at h
        cases hg : row.geomParse with
        | none => rw [hg] at h; simp at h
        | some g =>
          rw [hg] at h
          cases g with
          | point q => exact ih h p hp
          | otherGeom => exact ih h p hp
          | polygon cs =>
            cases hrest : loadParcels rest with
            | error e => rw [hrest] at h; simp [Except.map] at h
            | ok ps' =>
              rw [hrest] at h
              simp only [Except.map, Except.ok.injEq] at h
              subst h
              rcases List.mem_cons.mp hp with rfl | hp
              · rfl
              · exact ih hrest p hp
          | multiPolygon cs =>
            cases hrest : loadParcels rest with
            | error e => rw [hrest] at h; simp [Except.map] at h
            | ok ps' =>
              rw [hrest] at h
              simp only [Except.map, Except.ok.injEq] at h
              subst h
              rcases List.mem_cons.mp hp with rfl | hp
              · rfl
              · exact ih hrest p hp

/-- C6 amended. Every parcel stored by load_parcels has a normalised envelope
that contains every coordinate of its geometry; when the geometry is empty
(no bounding rectangle exists) the parcel is stored all the same, with the
degenerate envelope at the origin, rather than dropped. -/
theorem load_parcels_envelope_invariant (rows : List ParcelRow)
    (ps : List (ParcelData ParcelGeometry)) (h : loadParcels rows = .ok ps)
    (p : ParcelData ParcelGeometry) (hp : p ∈ ps) :
    (∀ c ∈ p.geom.coords, p.envelope.containsPt c) ∧
    AabbNormalized p.envelope ∧
    (p.geom.coords = [] → p.envelope = Aabb.fromPoint ⟨0, 0⟩) := by
  have henv := loadParcels_ok_envelope h p hp
  rw [henv]
  unfold ParcelGeometry.envelope
  cases hbr : boundingRect p.geom.coords with
  | none =>
    have hempty : p.geom.coords = [] := by
      cases hcs : p.geom.coords with
      | nil => rfl
      | cons c cs => rw [hcs] at hbr; simp [boundingRect] at hbr
    refine ⟨?_, ⟨le_refl _, le_refl _⟩, fun _ => rfl⟩
    intro c hc
    rw [hempty] at hc
    simp at hc
  | some r =>
    have hspec := boundingRect_some_spec hbr
    refine ⟨hspec.1, hspec.2, ?_⟩
    intro hempty
    rw [hempty] at hbr
    simp [boundingRect] at hbr

/-- Closed instance for C6 amended: a one-point polygon is stored with its
degenerate tight envelope. -/
theorem load_parcels_envelope_invariant_witness :
    (∀ c ∈ (ParcelGeometry.polygon [⟨2, 3⟩]).coords,
      (Aabb.fromPoint ⟨2, 3⟩).containsPt c) ∧
    AabbNormalized (Aabb.fromPoint ⟨2, 3⟩) := by
  have hrun : loadParcels [⟨.str "P", .str "C", some (.polygon [⟨2, 3⟩])⟩] =
      .ok [⟨"P", "C", ParcelGeometry.polygon [⟨2, 3⟩], Aabb.fromPoint ⟨2, 3⟩⟩] := by
    rfl
  have h := load_parcels_envelope_invariant _ _ hrun
    ⟨"P", "C", ParcelGeometry.polygon [⟨2, 3⟩], Aabb.fromPoint ⟨2, 3⟩⟩
    (List.mem_singleton.mpr rfl)
  exact ⟨h.1, h.2.1⟩

/-- C6 counterexample. A row whose polygon geometry is empty (an empty WKB
POLYGON parses but has no bounding rectangle) is not dropped at load time:
load_parcels stores it with the degenerate origin envelope. -/
theorem load_parcels_keeps_empty_geometry :
    loadParcels [⟨.str "P", .str "C", some (.polygon [])⟩] =
      .ok [⟨"P", "C", ParcelGeometry.polygon [], ⟨⟨0, 0⟩, ⟨0, 0⟩⟩⟩] ∧
    (ParcelGeometry.polygon []).coords = [] ∧
    ¬ (∀ ps, loadParcels [⟨.str "P", .str "C", some (.polygon [])⟩] = .ok ps →
        ∀ p ∈ ps, p.geom.coords ≠ []) := by
  refine ⟨rfl, rfl, ?_⟩
  intro hclaim
  exact hclaim _ rfl ⟨"P", "C", ParcelGeometry.polygon [], ⟨⟨0, 0⟩, ⟨0, 0⟩⟩⟩
    (List.mem_singleton.mpr rfl) rfl

/-- C7 amended. A malformed WKB row aborts the whole load of the file with an
error, for parcels and for addresses alike: no prefix of successfully parsed
rows is returned. Only a row whose WKB parses to an unsupported geometry type
is dropped while processing continues. -/
theorem loader_malformed_wkb_aborts :
    (∀ rows : List ParcelRow, (∃ r ∈ rows, r.geomParse = none) →
      ∀ ps, loadParcels rows ≠ .ok ps) ∧
    (∀ rows : List AddressRow, (∃ r ∈ rows, r.geomParse = none) →
      ∀ as, loadAddresses rows ≠ .ok as) ∧
    (∀ (id code : String) (rest : List ParcelRow),
      loadParcels (⟨.str id, .str code, some .otherGeom⟩ :: rest) =
        loadParcels rest) ∧
    (∀ (id code : String) (link : ColVal) (cs : List Pt)
      (rest : List AddressRow),
      loadAddresses (⟨.str id, .str code, some (.polygon cs), link⟩ :: rest) =
        loadAddresses rest) := by
  refine ⟨?_, ?_, ?_, ?_⟩
  · intro rows
    induction rows with
    | nil => intro h; simp at h
    | cons row rest ih =>
      intro h ps hok
      unfold loadParcels at hok
      cases hid : getStringOrLong row.idCol with
      | none => rw [hid] at hok; simp at hok
      | some id =>
        rw [hid] at hok
        cases hcode : getStringOrLong row.codeCol with
        | none => rw [hcode] at hok; simp at hok
        | some code =>
          rw [hcode] at hok
          cases hg : row.geomParse with
          | none => rw [hg] at hok; simp at hok
          | some g =>
            have hrest : ∃ r ∈ rest, r.geomParse = none := by
              rcases h with ⟨r, hr, hrg⟩
              rcases List.mem_cons.mp hr with rfl | hr
              · rw [hg] at hrg; cases hrg
              · exact ⟨r, hr, hrg⟩
            rw [hg] at hok
            cases g with
            | point q => exact ih hrest ps hok
            | otherGeom => exact ih hrest ps hok
            | polygon cs =>
              cases hload : loadParcels rest with
              | error e => rw [hload] at hok; simp [Except.map] at hok
              | ok ps' => exact ih hrest ps' hload
            | multiPolygon cs =>
              cases hload : loadParcels rest with
              | error e => rw [hload] at hok; simp [Except.map] at hok
              | ok ps' => exact ih hrest ps' hload
  · intro rows
    induction rows with
    | nil => intro h; simp at h
    | cons row rest ih =>
      intro h as hok
      unfold loadAddresses at hok
      cases hid : getStringOrLong row.idCol with
      | none => rw [hid] at hok; simp at hok
      | some id =>
        rw [hid] at hok
        cases hcode : getStringOrLong row.codeCol with
        | none => rw [hcode] at hok; simp at hok
        | some code =>
          rw [hcode] at hok
          cases hg : row.geomParse with
          | none => rw [hg] at hok; simp at hok
          | some g =>
            have hrest : ∃ r ∈ rest, r.geomParse = none := by
              rcases h with ⟨r, hr, hrg⟩
              rcases List.mem_cons.mp hr with rfl | hr
              · rw [hg] at hrg; cases hrg
              · exact ⟨r, hr, hrg⟩
            rw [hg] at hok
            cases g with
            | point q =>
              cases hload : loadAddresses rest with
              | error e => rw [hload] at hok; simp [Except.map] at hok
              | ok as' => exact ih hrest as' hload
            | otherGeom => exact ih hrest as hok
            | polygon cs => exact ih hrest as hok
            | multiPolygon cs => exact ih hrest as hok
  · intro id code rest; rfl
  · intro id code link cs rest; rfl

/-- Closed instance for C7 amended: a single malformed parcel row yields an
error, and an unsupported-geometry row in front of an empty file is dropped. -/
theorem loader_malformed_wkb_aborts_witness :
    (loadParcels [⟨.str "Q", .str "C", none⟩] ≠ .ok []) ∧
    loadParcels [⟨.str "R", .str "C", some .otherGeom⟩] = loadParcels [] := by
  constructor
  · exact loader_malformed_wkb_aborts.1 [⟨.str "Q", .str "C", none⟩]
      ⟨⟨.str "Q", .str "C", none⟩, List.mem_singleton.mpr rfl, rfl⟩ []
  · exact loader_malformed_wkb_aborts.2.2.1 "R" "C" []

/-- C7 counterexample. With a good row, a malformed-WKB row and another good
row, load_parcels returns the WKB error of the middle row instead of dropping
it and returning the two successfully parsed rows. -/
theorem load_parcels_aborts_on_middle_bad_row :
    loadParcels
      [⟨.str "P1", .str "C", some (.polygon [⟨0, 0⟩])⟩,
       ⟨.str "Q", .str "C", none⟩,
       ⟨.str "P3", .str "C", some (.polygon [⟨7, 8⟩])⟩] =
      .error "Failed to parse WKB for parcel Q" ∧
    loadParcels
      [⟨.str "P1", .str "C", some (.polygon [⟨0, 0⟩])⟩,
       ⟨.str "Q", .str "C", none⟩,
       ⟨.str "P3", .str "C", some (.polygon [⟨7, 8⟩])⟩] ≠
      .ok [⟨"P1", "C", ParcelGeometry.polygon [⟨0, 0⟩], Aabb.fromPoint ⟨0, 0⟩⟩,
           ⟨"P3", "C", ParcelGeometry.polygon [⟨7, 8⟩], Aabb.fromPoint ⟨7, 8⟩⟩] := by
  constructor
  · rfl
  · intro hcontra
    simp [loadParcels, getStringOrLong, Except.map] at hcontra

/-! Stage 2 walk lemmas. -/

/-- Invariant of the Stage 2 best candidate: any held best is an eligible
exact distance. -/
def Step2Inv {G : Type} (dist : G → Pt → ℚ) (thr : ℚ) (pt : Pt)
    (b : Option (ParcelData G × ℚ)) : Prop :=
  ∀ q bd, b = some (q, bd) → insideEps < bd ∧ bd ≤ thr ∧ bd = dist q.geom pt

/-- Full specification of the Stage 2 walk fold: the result is eligible, never
worse than the initial best, minimal over the eligible examined candidates,
and is either the initial best or one of the examined candidates. -/
theorem step2Loop_go {G : Type} {dist : G → Pt → ℚ} {thr : ℚ} {pt : Pt} :
    ∀ {walk : List (ParcelData G)} {b : Option (ParcelData G × ℚ)}
      {p : ParcelData G} {d : ℚ},
      Step2Inv dist thr pt b →
      step2Loop dist thr pt walk b = some (p, d) →
      (insideEps < d ∧ d ≤ thr ∧ d = dist p.geom pt) ∧
      (∀ q0 bd0, b = some (q0, bd0) → d ≤ bd0) ∧
      (∀ q ∈ step2Examined dist thr pt walk, insideEps < dist q.geom pt →
        d ≤ dist q.geom pt) ∧
      (p ∈ step2Examined dist thr pt walk ∨ b = some (p, d)) := by
  intro walk
  induction walk with
  | nil =>
    intro b p d hinv h
    simp only [step2Loop] at h
    refine ⟨hinv p d h, ?_, ?_, Or.inr h⟩
    · intro q0 bd0 hb
      rw [h] at hb
      simp only [Option.some.injEq, Prod.mk.injEq] at hb
      exact le_of_eq hb.2
    · intro q hq
      simp [step2Examined] at hq
  | cons q rest ih =>
    intro b p d hinv h
    simp only [step2Loop] at h
    by_cases hbreak : parcelNodeDist2 dist q pt > thr * thr
    · rw [if_pos hbreak] at h
      have hex : step2Examined dist thr pt (q :: rest) = [] := by
        simp [step2Examined, List.takeWhile_cons, not_le.mpr hbreak]
      refine ⟨hinv p d h, ?_, ?_, Or.inr h⟩
      · intro q0 bd0 hb
        rw [h] at hb
        simp only [Option.some.injEq, Prod.mk.injEq] at hb
        exact le_of_eq hb.2
      · intro x hx
        rw [hex] at hx
        simp at hx
    · rw [if_neg hbreak] at h
      have hex : step2Examined dist thr pt (q :: rest) =
          q :: step2Examined dist thr pt rest := by
        simp [step2Examined, List.takeWhile_cons, not_lt.mp hbreak]
      by_cases hskip : dist q.geom pt ≤ insideEps ∨ dist q.geom pt > thr
      · rw [if_pos hskip] at h
        rcases ih hinv h with ⟨h1, h2, h3, h4⟩
        refine ⟨h1, h2, ?_, ?_⟩
        · intro x hx hxe
          rw [hex] at hx
          rcases List.mem_cons.mp hx with rfl | hx
          · rcases hskip with hc | hc
            · exact absurd hxe (not_lt.mpr hc)
            · exact le_trans h1.2.1 (le_of_lt hc)
          · exact h3 x hx hxe
        · rcases h4 with h4 | h4
          · left; rw [hex]; exact List.mem_cons_of_mem _ h4
          · right; exact h4
      · rw [if_neg hskip] at h
        push_neg at hskip
        obtain ⟨hlo, hhi⟩ := hskip
        cases b with
        | none =>
          dsimp only at h
          have hinv' : Step2Inv dist thr pt (some (q, dist q.geom pt)) := by
            intro x xd hx
            simp only [Option.some.injEq, Prod.mk.injEq] at hx
            obtain ⟨rfl, rfl⟩ := hx
            exact ⟨hlo, hhi, rfl⟩
          rcases ih hinv' h with ⟨h1, h2, h3, h4⟩
          refine ⟨h1, ?_, ?_, ?_⟩
          · intro q0 bd0 hb
            simp at hb
          · intro x hx hxe
            rw [hex] at hx
            rcases List.mem_cons.mp hx with rfl | hx
            · exact h2 x (dist x.geom pt) rfl
            · exact h3 x hx hxe
          · rcases h4 with h4 | h4
            · left; rw [hex]; exact List.mem_cons_of_mem _ h4
            · simp only [Option.some.injEq, Prod.mk.injEq] at h4
              left
              rw [hex, ← h4.1]
              exact List.mem_cons_self _ _
        | some qb =>
          obtain ⟨q0, bd0⟩ := qb
          dsimp only at h
          have hq0 := hinv q0 bd0 rfl
          by_cases himp : dist q.geom pt < bd0
          · rw [if_pos himp] at h
            have hinv' : Step2Inv dist thr pt (some (q, dist q.geom pt)) := by
              intro x xd hx
              simp only [Option.some.injEq, Prod.mk.injEq] at hx
              obtain ⟨rfl, rfl⟩ := hx
              exact ⟨hlo, hhi, rfl⟩
            rcases ih hinv' h with ⟨h1, h2, h3, h4⟩
            refine ⟨h1, ?_, ?_, ?_⟩
            · intro x xd hb
              simp only [Option.some.injEq, Prod.mk.injEq] at hb
              obtain ⟨rfl, rfl⟩ := hb
              exact le_trans (h2 q (dist q.geom pt) rfl) (le_of_lt himp)
            · intro x hx hxe
              rw [hex] at hx
              rcases List.mem_cons.mp hx with rfl | hx
              · exact h2 x (dist x.geom pt) rfl
              · exact h3 x hx hxe
            · rcases h4 with h4 | h4
              · left; rw [hex]; exact List.mem_cons_of_mem _ h4
              · simp only [Option.some.injEq, Prod.mk.injEq] at h4
                left
                rw [hex, ← h4.1]
                exact List.mem_cons_self _ _
          · rw [if_neg himp] at h
            rcases ih hinv h with ⟨h1, h2, h3, h4⟩
            refine ⟨h1, ?_, ?_, ?_⟩
            · intro x xd hb
              simp only [Option.some.injEq, Prod.mk.injEq] at hb
              obtain ⟨rfl, rfl⟩ := hb
              exact h2 q0 bd0 rfl
            · intro x hx hxe
              rw [hex] at hx
              rcases List.mem_cons.mp hx with rfl | hx
              · exact le_trans (h2 q0 bd0 rfl) (not_lt.mp himp)
              · exact h3 x hx hxe
            · rcases h4 with h4 | h4
              · left; rw [hex]; exact List.mem_cons_of_mem _ h4
              · right; exact h4

/-- C2 amended. Every Stage 2 emission is a BorderNear record whose distance
is the exact geometry distance of an examined parcel, strictly above
INSIDE_EPS_M (hence positive) and at most address_max_distance_m; no other
parcel examined by the walk whose exact distance exceeds INSIDE_EPS_M comes
strictly closer. A parcel examined at distance at most INSIDE_EPS_M (an
Inside case left to Stage 1) may be closer: the source skips it. -/
theorem step2_border_near_minimal {G : Type} (dist : G → Pt → ℚ)
    (walk : List (ParcelData G)) (thr : ℚ) (addr : AddressInput)
    (m : MatchOutput) (h : step2ForAddress dist walk thr addr = some m) :
    m.match_type = MatchType.BorderNear ∧
    0 < m.distance_m ∧ insideEps < m.distance_m ∧ m.distance_m ≤ thr ∧
    (∃ p ∈ step2Examined dist thr addr.geom walk,
      m.id_parcelle = some p.id ∧ m.distance_m = dist p.geom addr.geom) ∧
    ∀ q ∈ step2Examined dist thr addr.geom walk,
      insideEps < dist q.geom addr.geom →
      m.distance_m ≤ dist q.geom addr.geom := by
  unfold step2ForAddress at h
  cases hl : step2Loop dist thr addr.geom walk none with
  | none => rw [hl] at h; simp at h
  | some pd =>
    obtain ⟨p, d⟩ := pd
    rw [hl] at h
    simp only [Option.some.injEq] at h
    subst h
    have hinv : Step2Inv dist thr addr.geom (none : Option (ParcelData G × ℚ)) := by
      intro q bd hq
      simp at hq
    rcases step2Loop_go hinv hl with ⟨⟨h1, h2, h3⟩, _, hmin, hmem⟩
    have hpos : 0 < d := lt_trans (by norm_num [insideEps]) h1
    rcases hmem with hmem | hmem
    · exact ⟨rfl, hpos, h1, h2, ⟨p, hmem, rfl, h3⟩, hmin⟩
    · simp at hmem

/-- Closed instance for C2 amended: one parcel at distance three meters within
a fifty-meter threshold yields a BorderNear record of distance three. -/
theorem step2_border_near_minimal_witness :
    (MatchOutput.new "a1" (some "P") MatchType.BorderNear 3).match_type =
      MatchType.BorderNear ∧
    (0 : ℚ) < (MatchOutput.new "a1" (some "P") MatchType.BorderNear 3).distance_m ∧
    (MatchOutput.new "a1" (some "P") MatchType.BorderNear 3).distance_m ≤ 50 := by
  have hrun : step2ForAddress (fun (g : ℚ) _ => g)
      [⟨"P", "c", 3, ⟨⟨0, 0⟩, ⟨1, 1⟩⟩⟩] 50 ⟨"a1", "c", ⟨9, 9⟩, none⟩ =
      some (MatchOutput.new "a1" (some "P") MatchType.BorderNear 3) := by
    norm_num [step2ForAddress, step2Loop, parcelNodeDist2, insideEps,
      MatchOutput.new]
  have h := step2_border_near_minimal (fun (g : ℚ) _ => g)
    [⟨"P", "c", 3, ⟨⟨0, 0⟩, ⟨1, 1⟩⟩⟩] 50 ⟨"a1", "c", ⟨9, 9⟩, none⟩ _ hrun
  exact ⟨h.1, h.2.1, h.2.2.2.1⟩

/-- C2 counterexample. An address lying inside parcel P1 (exact distance 0)
and three meters from parcel P2: Stage 2 examines P1 first, skips it for
being an Inside case, and emits BorderNear to P2 at distance three, although
the examined parcel P1 is strictly closer — refuting the claim that no
examined parcel has a strictly smaller exact distance. -/
theorem step2_examined_parcel_strictly_closer :
    step2ForAddress (fun (g : ℚ) _ => g)
      [⟨"P1", "c", 0, ⟨⟨0, 0⟩, ⟨1, 1⟩⟩⟩, ⟨"P2", "c", 3, ⟨⟨7/2, 0⟩, ⟨9/2, 1⟩⟩⟩]
      50 ⟨"a1", "c", ⟨1/2, 1/2⟩, none⟩ =
      some (MatchOutput.new "a1" (some "P2") MatchType.BorderNear 3) ∧
    (⟨"P1", "c", 0, ⟨⟨0, 0⟩, ⟨1, 1⟩⟩⟩ : ParcelData ℚ) ∈
      step2Examined (fun (g : ℚ) _ => g) 50 (⟨1/2, 1/2⟩ : Pt)
        [⟨"P1", "c", 0, ⟨⟨0, 0⟩, ⟨1, 1⟩⟩⟩, ⟨"P2", "c", 3, ⟨⟨7/2, 0⟩, ⟨9/2, 1⟩⟩⟩] ∧
    ¬ (∀ q ∈ step2Examined (fun (g : ℚ) _ => g) 50 (⟨1/2, 1/2⟩ : Pt)
        [⟨"P1", "c", 0, ⟨⟨0, 0⟩, ⟨1, 1⟩⟩⟩, ⟨"P2", "c", 3, ⟨⟨7/2, 0⟩, ⟨9/2, 1⟩⟩⟩],
        ¬ ((fun (g : ℚ) _ => g) q.geom (⟨1/2, 1/2⟩ : Pt) <
          (MatchOutput.new "a1" (some "P2") MatchType.BorderNear 3).distance_m)) := by
  refine ⟨?_, ?_, ?_⟩
  · norm_num [step2ForAddress, step2Loop, parcelNodeDist2, insideEps,
      MatchOutput.new]
  · norm_num [step2Examined, parcelNodeDist2, List.takeWhile_cons]
  · intro hall
    have hP1 : (⟨"P1", "c", 0, ⟨⟨0, 0⟩, ⟨1, 1⟩⟩⟩ : ParcelData ℚ) ∈
        step2Examined (fun (g : ℚ) _ => g) 50 (⟨1/2, 1/2⟩ : Pt)
          [⟨"P1", "c", 0, ⟨⟨0, 0⟩, ⟨1, 1⟩⟩⟩,
           ⟨"P2", "c", 3, ⟨⟨7/2, 0⟩, ⟨9/2, 1⟩⟩⟩] := by
      norm_num [step2Examined, parcelNodeDist2, List.takeWhile_cons]
    have := hall _ hP1
    simp [MatchOutput.new] at this

/-- The head of a dropWhile suffix fails the predicate. -/
theorem dropWhile_head_not {α : Type} (p : α → Bool) :
    ∀ (l : List α) (r0 : α) (rest : List α),
      l.dropWhile p = r0 :: rest → p r0 = false := by
  intro l
  induction l with
  | nil => intro r0 rest h; simp [List.dropWhile] at h
  | cons a as ih =>
    intro r0 rest h
    by_cases hp : p a
    · rw [List.dropWhile_cons_of_pos hp] at h
      exact ih r0 rest h
    · rw [List.dropWhile_cons_of_neg hp] at h
      cases h
      exact Bool.not_eq_true _ ▸ (by simpa using hp)

/-- C4 amended. The distance_2 of a parcel node is the square of the exact
point-to-geometry distance, not the squared distance to the node envelope
(refuted below); and for a walk sorted by this distance_2 — the order the
R-tree nearest-neighbour iterator produces — the Stage 2 early termination
against thr² discards no parcel whose exact distance is within the
threshold: the emitted distance is minimal over every eligible parcel of the
whole walk, examined or not. -/
theorem step2_termination_sound {G : Type} (dist : G → Pt → ℚ)
    (walk : List (ParcelData G)) (thr : ℚ) (addr : AddressInput)
    (m : MatchOutput)
    (Hnn : ∀ p ∈ walk, 0 ≤ dist p.geom addr.geom)
    (hsorted : walk.Pairwise (fun p q =>
      parcelNodeDist2 dist p addr.geom ≤ parcelNodeDist2 dist q addr.geom))
    (h : step2ForAddress dist walk thr addr = some m) :
    ∀ q ∈ walk, insideEps < dist q.geom addr.geom →
      dist q.geom addr.geom ≤ thr →
      m.distance_m ≤ dist q.geom addr.geom := by
  unfold step2ForAddress at h
  cases hl : step2Loop dist thr addr.geom walk none with
  | none => rw [hl] at h; simp at h
  | some pd =>
    obtain ⟨p, d⟩ := pd
    rw [hl] at h
    simp only [Option.some.injEq] at h
    subst h
    have hinv : Step2Inv dist thr addr.geom (none : Option (ParcelData G × ℚ)) := by
      intro q bd hq
      simp at hq
    rcases step2Loop_go hinv hl with ⟨⟨h1, h2, _⟩, _, hmin, _⟩
    intro q hq hqe hqthr
    have hsplit : walk.takeWhile (fun p =>
        decide (parcelNodeDist2 dist p addr.geom ≤ thr * thr)) ++
        walk.dropWhile (fun p =>
          decide (parcelNodeDist2 dist p addr.geom ≤ thr * thr)) = walk :=
      List.takeWhile_append_dropWhile _ walk
    rw [← hsplit] at hq
    rcases List.mem_append.mp hq with hq | hq
    · exact hmin q hq hqe
    · exfalso
      cases hdrop : walk.dropWhile (fun p =>
          decide (parcelNodeDist2 dist p addr.geom ≤ thr * thr)) with
      | nil => rw [hdrop] at hq; simp at hq
      | cons r0 rest =>
        rw [hdrop] at hq
        have hr0 : parcelNodeDist2 dist r0 addr.geom > thr * thr := by
          have := dropWhile_head_not _ walk r0 rest hdrop
          simpa using this
        have hq2 : parcelNodeDist2 dist q addr.geom > thr * thr := by
          rcases List.mem_cons.mp hq with rfl | hq
          · exact hr0
          · have hpair : List.Pairwise (fun p q =>
                parcelNodeDist2 dist p addr.geom ≤
                  parcelNodeDist2 dist q addr.geom) (r0 :: rest) := by
              rw [← hsplit, hdrop] at hsorted
              exact (List.pairwise_append.mp hsorted).2.1
            exact lt_of_lt_of_le hr0 ((List.pairwise_cons.mp hpair).1 q hq)
        have hqmem : q ∈ walk := by
          rw [← hsplit, hdrop]
          exact List.mem_append.mpr (Or.inr hq)
        have hq0 : 0 ≤ dist q.geom addr.geom := Hnn q hqmem
        have hDD : dist q.geom addr.geom * dist q.geom addr.geom ≤ thr * thr :=
          mul_self_le_mul_self hq0 hqthr
        have hq2' : dist q.geom addr.geom * dist q.geom addr.geom > thr * thr := by
          simpa [parcelNodeDist2] using hq2
        exact absurd hq2' (not_lt.mpr hDD)

/-- Closed instance for C4 amended: a one-element sorted walk at distance
three within threshold fifty. -/
theorem step2_termination_sound_witness :
    (MatchOutput.new "a1" (some "P") MatchType.BorderNear 3).distance_m ≤
      (fun (g : ℚ) (_ : Pt) => g) (3 : ℚ) (⟨9, 9⟩ : Pt) := by
  have hrun : step2ForAddress (fun (g : ℚ) _ => g)
      [⟨"P", "c", 3, ⟨⟨0, 0⟩, ⟨1, 1⟩⟩⟩] 50 ⟨"a1", "c", ⟨9, 9⟩, none⟩ =
      some (MatchOutput.new "a1" (some "P") MatchType.BorderNear 3) := by
    norm_num [step2ForAddress, step2Loop, parcelNodeDist2, insideEps,
      MatchOutput.new]
  exact step2_termination_sound (fun (g : ℚ) _ => g)
    [⟨"P", "c", 3, ⟨⟨0, 0⟩, ⟨1, 1⟩⟩⟩] 50 ⟨"a1", "c", ⟨9, 9⟩, none⟩ _
    (by intro p hp; rcases List.mem_singleton.mp hp with rfl; norm_num)
    (List.pairwise_singleton _ _) hrun
    ⟨"P", "c", 3, ⟨⟨0, 0⟩, ⟨1, 1⟩⟩⟩ (List.mem_singleton.mpr rfl)
    (by norm_num [insideEps]) (by norm_num)

/-- C4 counterexample. A multipolygon of two unit squares in opposite corners
of the ten-by-ten envelope, queried from the corner point (10, 0): the exact
geometry distance is nine, so ParcelNode distance_2 returns eighty-one, while
the squared distance to the node envelope is zero — the two notions differ,
refuting the claim that distance_2 equals the envelope distance. -/
theorem parcel_node_distance_2_is_not_envelope_distance :
    parcelNodeDist2 (fun (g : ℚ) _ => g)
      (⟨"P", "c", 9, ⟨⟨0, 0⟩, ⟨10, 10⟩⟩⟩ : ParcelData ℚ) ⟨10, 0⟩ = 81 ∧
    Aabb.dist2 (⟨⟨0, 0⟩, ⟨10, 10⟩⟩ : Aabb) ⟨10, 0⟩ = 0 ∧
    ¬ (parcelNodeDist2 (fun (g : ℚ) _ => g)
        (⟨"P", "c", 9, ⟨⟨0, 0⟩, ⟨10, 10⟩⟩⟩ : ParcelData ℚ) ⟨10, 0⟩ =
      Aabb.dist2 (⟨⟨0, 0⟩, ⟨10, 10⟩⟩ : Aabb) ⟨10, 0⟩) := by
  refine ⟨?_, ?_, ?_⟩ <;>
    norm_num [parcelNodeDist2, Aabb.dist2]

/-! Geometric facts about the expanded box queries of Stage 3. -/

/-- One-dimensional clamp bound: a coordinate lying more than r beyond either
edge of a normalised interval contributes more than r² to the squared box
distance. -/
theorem dim_clamp_bound {lo hi x r : ℚ} (hlh : lo ≤ hi) (hr : 0 ≤ r)
    (h : x < lo - r ∨ hi + r < x) :
    r * r < (x - max lo (min x hi)) * (x - max lo (min x hi)) := by
  rcases h with h | h
  · have hx : x < lo := by linarith
    have h1 : min x hi = x := min_eq_left (by linarith)
    have h2 : max lo x = lo := max_eq_left (le_of_lt hx)
    rw [h1, h2]
    nlinarith
  · have hx : hi < x := by linarith
    have h1 : min x hi = hi := min_eq_right (le_of_lt hx)
    rw [h1, max_eq_right hlh]
    nlinarith

/-- A point outside the box expanded by r lies at squared box distance more
than r² from the original box. -/
theorem outside_expand_dist2 {env : Aabb} {r : ℚ} {p : Pt}
    (henv : AabbNormalized env) (hr : 0 ≤ r)
    (hout : ¬ (expandAabb env r).containsPt p) :
    r * r < env.dist2 p := by
  obtain ⟨hex, hey⟩ := henv
  have hxm : min (env.lower.x - r) (env.upper.x + r) = env.lower.x - r :=
    min_eq_left (by linarith)
  have hxM : max (env.lower.x - r) (env.upper.x + r) = env.upper.x + r :=
    max_eq_right (by linarith)
  have hym : min (env.lower.y - r) (env.upper.y + r) = env.lower.y - r :=
    min_eq_left (by linarith)
  have hyM : max (env.lower.y - r) (env.upper.y + r) = env.upper.y + r :=
    max_eq_right (by linarith)
  rw [expandAabb, Aabb.fromCorners, Aabb.containsPt] at hout
  simp only [hxm, hxM, hym, hyM] at hout
  have hterm1 : 0 ≤ (p.x - max env.lower.x (min p.x env.upper.x)) *
      (p.x - max env.lower.x (min p.x env.upper.x)) := mul_self_nonneg _
  have hterm2 : 0 ≤ (p.y - max env.lower.y (min p.y env.upper.y)) *
      (p.y - max env.lower.y (min p.y env.upper.y)) := mul_self_nonneg _
  by_cases h1 : p.x < env.lower.x - r
  · have := dim_clamp_bound hex hr (Or.inl h1)
    simp only [Aabb.dist2]
    linarith
  · by_cases h2 : env.upper.x + r < p.x
    · have := dim_clamp_bound hex hr (Or.inr h2)
      simp only [Aabb.dist2]
      linarith
    · by_cases h3 : p.y < env.lower.y - r
      · have := dim_clamp_bound hey hr (Or.inl h3)
        simp only [Aabb.dist2]
        linarith
      · by_cases h4 : env.upper.y + r < p.y
        · have := dim_clamp_bound hey hr (Or.inr h4)
          simp only [Aabb.dist2]
          linarith
        · exfalso
          exact hout ⟨not_lt.mp h1, not_lt.mp h2, not_lt.mp h3, not_lt.mp h4⟩

/-- A point at squared box distance at most r² lies in the box expanded by r. -/
theorem dist2_le_mem_expand {env : Aabb} {r : ℚ} {p : Pt}
    (henv : AabbNormalized env) (hr : 0 ≤ r) (h : env.dist2 p ≤ r * r) :
    (expandAabb env r).containsPt p := by
  by_contra hnc
  exact absurd h (not_le.mpr (outside_expand_dist2 henv hr hnc))

/-- Strong invariant of the Stage 3 loop state: the best is weakly sound and
is a lower bound on the exact distance of every seen address whose distance is
within the fallback ceiling. -/
def Step3Strong {G : Type} (dist : G → Pt → ℚ) (parcel : ParcelData G)
    (addresses : List AddressInput) (dmax : ℚ) (st : Step3St) : Prop :=
  BestSound dist parcel addresses dmax st ∧
  ∀ ia ∈ enumerate addresses, ia.1 ∈ st.seen →
    dist parcel.geom ia.2.geom ≤ dmax →
    ∃ i d aid, st.best = some (i, d, aid) ∧ d ≤ dist parcel.geom ia.2.geom

theorem step3Consider_strong {G : Type} {dist : G → Pt → ℚ}
    {parcel : ParcelData G} {addresses : List AddressInput} {dmax : ℚ}
    {st : Step3St} {ia : ℕ × AddressInput}
    (Hnn : ∀ p : Pt, 0 ≤ dist parcel.geom p)
    (Hlb : ∀ p : Pt, parcel.envelope.dist2 p ≤
      dist parcel.geom p * dist parcel.geom p)
    (hia : ia ∈ enumerate addresses)
    (h : Step3Strong dist parcel addresses dmax st) :
    Step3Strong dist parcel addresses dmax
      (step3Consider dist dmax parcel st ia) ∧
    st.seen ⊆ (step3Consider dist dmax parcel st ia).seen ∧
    ia.1 ∈ (step3Consider dist dmax parcel st ia).seen := by
  obtain ⟨hsound, hmin⟩ := h
  have hia2 : ia.2 ∈ addresses := mem_enumerate_snd hia
  unfold step3Consider
  by_cases h0 : ia.1 ∈ st.seen
  · rw [if_pos h0]
    exact ⟨⟨hsound, hmin⟩, fun x hx => hx, h0⟩
  · rw [if_neg h0]
    set st1 : Step3St := { st with seen := ia.1 :: st.seen, anyNew := true }
      with hst1
    have hsub : st.seen ⊆ st1.seen := fun x hx => List.mem_cons_of_mem _ hx
    have hself : ia.1 ∈ st1.seen := List.mem_cons_self _ _
    have hseenInv : ∀ ib ∈ enumerate addresses, ib.1 ∈ st1.seen →
        ib = ia ∨ ib.1 ∈ st.seen := by
      intro ib hib hmem
      rcases List.mem_cons.mp hmem with heq | hmem
      · exact Or.inl (enumIdx_fst_inj hib hia heq)
      · exact Or.inr hmem
    by_cases hskip : (match st1.best with
        | some (_, bd, _) => decide (parcel.envelope.dist2 ia.2.geom ≥ bd * bd)
        | none => false) = true
    · rw [if_pos hskip]
      refine ⟨⟨fun i d aid hb => hsound i d aid hb, ?_⟩, hsub, hself⟩
      intro ib hib hmem hble
      rcases hseenInv ib hib hmem with rfl | hmem
      · cases hbest : st.best with
        | none =>
          rw [hst1] at hskip
          simp only [hbest] at hskip
          simp at hskip
        | some b =>
          obtain ⟨i0, bd, aid0⟩ := b
          rw [hst1] at hskip
          simp only [hbest, decide_eq_true_eq] at hskip
          rcases hsound i0 bd aid0 hbest with ⟨a0, _, _, hbd, _⟩
          have hbd0 : 0 ≤ bd := hbd ▸ Hnn a0.geom
          have hD0 : 0 ≤ dist parcel.geom ib.2.geom := Hnn _
          have hsq : bd * bd ≤ dist parcel.geom ib.2.geom *
              dist parcel.geom ib.2.geom :=
            le_trans hskip (Hlb ib.2.geom)
          refine ⟨i0, bd, aid0, rfl, ?_⟩
          by_contra hcon
          push_neg at hcon
          exact absurd hsq (not_le.mpr (mul_self_lt_mul_self hD0 hcon))
      · exact hmin ib hib hmem hble
    · rw [if_neg (by simpa using hskip)]
      by_cases hfar : dist parcel.geom ia.2.geom > dmax
      · rw [if_pos hfar]
        refine ⟨⟨fun i d aid hb => hsound i d aid hb, ?_⟩, hsub, hself⟩
        intro ib hib hmem hble
        rcases hseenInv ib hib hmem with rfl | hmem
        · exact absurd hble (not_le.mpr hfar)
        · exact hmin ib hib hmem hble
      · rw [if_neg hfar]
        by_cases hbetter : (match st1.best with
            | none => true
            | some (_, bd, bid) =>
              if dist parcel.geom ia.2.geom < bd then true
              else if dist parcel.geom ia.2.geom = bd then decide (ia.2.id < bid)
              else false) = true
        · rw [if_pos hbetter]
          have hdle : ∀ i0 bd aid0, st.best = some (i0, bd, aid0) →
              dist parcel.geom ia.2.geom ≤ bd := by
            intro i0 bd aid0 hbest
            rw [hst1] at hbetter
            simp only [hbest] at hbetter
            by_cases hc1 : dist parcel.geom ia.2.geom < bd
            · exact le_of_lt hc1
            · by_cases hc2 : dist parcel.geom ia.2.geom = bd
              · exact le_of_eq hc2
              · simp [hc1, hc2] at hbetter
          refine ⟨⟨?_, ?_⟩, hsub, hself⟩
          · intro i d aid hb
            simp only [Option.some.injEq, Prod.mk.injEq] at hb
            obtain ⟨rfl, rfl, rfl⟩ := hb
            exact ⟨ia.2, hia2, rfl, rfl, le_of_not_lt hfar⟩
          · intro ib hib hmem hble
            refine ⟨ia.1, dist parcel.geom ia.2.geom, ia.2.id, rfl, ?_⟩
            rcases hseenInv ib hib hmem with rfl | hmem
            · exact le_refl _
            · rcases hmin ib hib hmem hble with ⟨i0, bd, aid0, hbest, hle⟩
              exact le_trans (hdle i0 bd aid0 hbest) hle
        · rw [if_neg hbetter]
          have hbest : ∃ i0 bd aid0, st.best = some (i0, bd, aid0) ∧
              bd ≤ dist parcel.geom ia.2.geom := by
            cases hb : st.best with
            | none =>
              rw [hst1] at hbetter
              simp [hb] at hbetter
            | some b =>
              obtain ⟨i0, bd, aid0⟩ := b
              rw [hst1] at hbetter
              simp only [hb] at hbetter
              by_cases hc1 : dist parcel.geom ia.2.geom < bd
              · simp [hc1] at hbetter
              · exact ⟨i0, bd, aid0, rfl, not_lt.mp hc1⟩
          refine ⟨⟨fun i d aid hb => hsound i d aid hb, ?_⟩, hsub, hself⟩
          intro ib hib hmem hble
          rcases hseenInv ib hib hmem with rfl | hmem
          · rcases hbest with ⟨i0, bd, aid0, hb, hle⟩
            exact ⟨i0, bd, aid0, hb, hle⟩
          · exact hmin ib hib hmem hble

theorem step3Fold_strong {G : Type} {dist : G → Pt → ℚ}
    {parcel : ParcelData G} {addresses : List AddressInput} {dmax : ℚ}
    (Hnn : ∀ p : Pt, 0 ≤ dist parcel.geom p)
    (Hlb : ∀ p : Pt, parcel.envelope.dist2 p ≤
      dist parcel.geom p * dist parcel.geom p) :
    ∀ {l : List (ℕ × AddressInput)} {st : Step3St},
      (∀ x ∈ l, x ∈ enumerate addresses) →
      Step3Strong dist parcel addresses dmax st →
      Step3Strong dist parcel addresses dmax
        (l.foldl (step3Consider dist dmax parcel) st) ∧
      st.seen ⊆ (l.foldl (step3Consider dist dmax parcel) st).seen ∧
      ∀ x ∈ l, x.1 ∈ (l.foldl (step3Consider dist dmax parcel) st).seen := by
  intro l
  induction l with
  | nil =>
    intro st _ h
    exact ⟨h, fun x hx => hx, by simp⟩
  | cons x xs ih =>
    intro st hl h
    have hx := hl x (List.mem_cons_self _ _)
    rcases step3Consider_strong Hnn Hlb hx h with ⟨h1, h2, h3⟩
    rcases ih (fun y hy => hl y (List.mem_cons_of_mem _ hy)) h1 with
      ⟨h4, h5, h6⟩
    simp only [List.foldl_cons]
    refine ⟨h4, fun y hy => h5 (h2 hy), ?_⟩
    intro y hy
    rcases List.mem_cons.mp hy with rfl | hy
    · exact h5 h3
    · exact h6 y hy

/-- A strong state whose seen set covers the box expanded by dmax holds a
best that is minimal over all addresses within the fallback ceiling. -/
theorem step3_covered_min {G : Type} {dist : G → Pt → ℚ}
    {parcel : ParcelData G} {addresses : List AddressInput} {dmax : ℚ}
    {stf : Step3St}
    (Hnn : ∀ p : Pt, 0 ≤ dist parcel.geom p)
    (Hlb : ∀ p : Pt, parcel.envelope.dist2 p ≤
      dist parcel.geom p * dist parcel.geom p)
    (Henv : AabbNormalized parcel.envelope) (hd0 : 0 ≤ dmax)
    (hStrong : Step3Strong dist parcel addresses dmax stf)
    (hcov : ∀ ia ∈ enumerate addresses,
      (expandAabb parcel.envelope dmax).containsPt ia.2.geom → ia.1 ∈ stf.seen) :
    ∀ i d aid, stf.best = some (i, d, aid) →
      ∀ a ∈ addresses, dist parcel.geom a.geom ≤ dmax →
        d ≤ dist parcel.geom a.geom := by
  intro i d aid hbest a ha hale
  rcases mem_enumerate_of_mem ha with ⟨ix, hix⟩
  have hseen : ix ∈ stf.seen := by
    apply hcov (ix, a) hix
    apply dist2_le_mem_expand Henv hd0
    calc parcel.envelope.dist2 a.geom
        ≤ dist parcel.geom a.geom * dist parcel.geom a.geom := Hlb a.geom
      _ ≤ dmax * dmax := mul_self_le_mul_self (Hnn a.geom) hale
  rcases hStrong.2 (ix, a) hix hseen hale with ⟨i', d', aid', hb', hle'⟩
  rw [hbest] at hb'
  simp only [Option.some.injEq, Prod.mk.injEq] at hb'
  rw [hb'.2.1]
  exact hle'

/-- Soundness of the whole Stage 3 loop: whenever it returns a state holding a
best candidate, no address within the fallback ceiling is strictly closer. -/
theorem step3Loop_strong_sound {G : Type} {dist : G → Pt → ℚ}
    {parcel : ParcelData G} {addresses : List AddressInput} {dmax : ℚ}
    (Hnn : ∀ p : Pt, 0 ≤ dist parcel.geom p)
    (Hlb : ∀ p : Pt, parcel.envelope.dist2 p ≤
      dist parcel.geom p * dist parcel.geom p)
    (Henv : AabbNormalized parcel.envelope) :
    ∀ {fuel : ℕ} {r : ℚ} {st st' : Step3St},
      0 < r →
      (r > dmax → st.best = none) →
      Step3Strong dist parcel addresses dmax st →
      step3Loop dist dmax parcel addresses fuel r st = some st' →
      ∀ i d aid, st'.best = some (i, d, aid) →
        ∀ a ∈ addresses, dist parcel.geom a.geom ≤ dmax →
          d ≤ dist parcel.geom a.geom := by
  intro fuel
  induction fuel with
  | zero => intro r st st' _ _ _ h; simp [step3Loop] at h
  | succ fuel ih =>
    intro r st st' hr hnone hst h
    rw [step3Loop] at h
    by_cases hg : r > dmax
    · rw [if_pos hg] at h
      simp only [Option.some.injEq] at h
      subst h
      intro i d aid hbest
      rw [hnone hg] at hbest
      cases hbest
    · rw [if_neg hg] at h
      have hrd : r ≤ dmax := not_lt.mp hg
      have hd0 : 0 ≤ dmax := le_trans (le_of_lt hr) hrd
      have hst0 : Step3Strong dist parcel addresses dmax
          { st with anyNew := false } :=
        ⟨fun i d aid hb => hst.1 i d aid hb,
         fun ia hia hmem hble => hst.2 ia hia hmem hble⟩
      have hwin : ∀ x ∈ locateInEnvelopeIdx addresses
          (expandAabb parcel.envelope r), x ∈ enumerate addresses :=
        fun x hx => List.mem_of_mem_filter hx
      rcases step3Fold_strong Hnn Hlb hwin hst0 with ⟨hStrongF, _, hseenF⟩
      set stf := (locateInEnvelopeIdx addresses
        (expandAabb parcel.envelope r)).foldl (step3Consider dist dmax parcel)
        { st with anyNew := false } with hstf
      have hcov : ∀ ia ∈ enumerate addresses,
          (expandAabb parcel.envelope r).containsPt ia.2.geom →
          ia.1 ∈ stf.seen := by
        intro ia hia hc
        apply hseenF
        unfold locateInEnvelopeIdx
        exact List.mem_filter.mpr ⟨hia, by simpa using hc⟩
      by_cases h1 : (match stf.best with
          | some (_, bd, _) => decide (bd ≤ r)
          | none => false) = true
      · rw [if_pos h1] at h
        simp only [Option.some.injEq] at h
        subst h
        intro i d aid hbest a ha hale
        have hdr : d ≤ r := by
          rw [hbest] at h1
          simpa using h1
        rcases mem_enumerate_of_mem ha with ⟨ix, hix⟩
        by_cases hseen : ix ∈ stf.seen
        · rcases hStrongF.2 (ix, a) hix hseen hale with
            ⟨i', d', aid', hb', hle'⟩
          rw [hbest] at hb'
          simp only [Option.some.injEq, Prod.mk.injEq] at hb'
          rw [hb'.2.1]
          exact hle'
        · have hout : ¬ (expandAabb parcel.envelope r).containsPt a.geom := by
            intro hc
            exact hseen (hcov (ix, a) hix hc)
          have hfar := outside_expand_dist2 Henv (le_of_lt hr) hout
          have hD := Hnn a.geom
          have hrD : r < dist parcel.geom a.geom := by
            by_contra hcon
            push_neg at hcon
            have := mul_self_le_mul_self hD hcon
            have := Hlb a.geom
            linarith
          exact le_trans hdr (le_of_lt hrD)
      · rw [if_neg h1] at h
        by_cases h2 : (!stf.anyNew && decide (r ≥ dmax)) = true
        · rw [if_pos h2] at h
          simp only [Option.some.injEq] at h
          subst h
          have hre : r = dmax := by
            simp only [Bool.and_eq_true, decide_eq_true_eq] at h2
            exact le_antisymm hrd h2.2
          subst hre
          exact step3_covered_min Hnn Hlb Henv hd0 hStrongF hcov
        · rw [if_neg h2] at h
          by_cases h3 : (match stf.best with
              | some (_, bd, _) => if bd > r then min bd dmax
                                   else min (r * 2) dmax
              | none => min (r * 2) dmax) ≤ r
          · rw [if_pos h3] at h
            simp only [Option.some.injEq] at h
            subst h
            have hre : r = dmax := by
              cases hb : stf.best with
              | none =>
                rw [hb] at h3
                dsimp only at h3
                rcases le_total (r * 2) dmax with hc | hc
                · rw [min_eq_left hc] at h3; linarith
                · rw [min_eq_right hc] at h3; exact le_antisymm hrd h3
              | some b =>
                obtain ⟨i0, bd, aid0⟩ := b
                rw [hb] at h3
                dsimp only at h3
                by_cases hbd : bd > r
                · rw [if_pos hbd] at h3
                  rcases le_total bd dmax with hc | hc
                  · rw [min_eq_left hc] at h3
                    exact absurd h3 (not_le.mpr hbd)
                  · rw [min_eq_right hc] at h3; exact le_antisymm hrd h3
                · rw [if_neg hbd] at h3
                  rcases le_total (r * 2) dmax with hc | hc
                  · rw [min_eq_left hc] at h3; linarith
                  · rw [min_eq_right hc] at h3; exact le_antisymm hrd h3
            subst hre
            exact step3_covered_min Hnn Hlb Henv hd0 hStrongF hcov
          · rw [if_neg h3] at h
            have hnr : ¬ ((match stf.best with
                | some (_, bd, _) => if bd > r then min bd dmax
                                     else min (r * 2) dmax
                | none => min (r * 2) dmax) ≤ r) := h3
            push_neg at hnr
            have hnle : (match stf.best with
                | some (_, bd, _) => if bd > r then min bd dmax
                                     else min (r * 2) dmax
                | none => min (r * 2) dmax) ≤ dmax := by
              cases hb : stf.best with
              | none => exact min_le_right _ _
              | some b =>
                obtain ⟨i0, bd, aid0⟩ := b
                dsimp only
                by_cases hbd : bd > r
                · rw [if_pos hbd]; exact min_le_right _ _
                · rw [if_neg hbd]; exact min_le_right _ _
            exact ih (lt_trans hr hnr)
              (fun hgt => absurd hnle (not_le.mpr hgt)) hStrongF h

/-- The squared box distance is nonnegative. -/
theorem dist2_nonneg (e : Aabb) (p : Pt) : 0 ≤ e.dist2 p := by
  have h1 := mul_self_nonneg (p.x - max e.lower.x (min p.x e.upper.x))
  have h2 := mul_self_nonneg (p.y - max e.lower.y (min p.y e.upper.y))
  simp only [Aabb.dist2]
  linarith

/-- C1 amended. For every parcel for which Stage 3 emits a FallbackNearest
record, the emitted distance is the exact geometry distance of one of the
addresses, above INSIDE_EPS_M and within fallback_max_distance_m, and no
address whose exact geometry distance to the parcel is at most
fallback_max_distance_m is strictly closer than the emitted one. (The
lexicographic tie-break of the claim does not always hold: the envelope
lower-bound pruning can skip an equal-distance address with a smaller id,
refuted separately.) The hypotheses state the geometric facts the source
relies on: the distance is nonnegative, the envelope distance is a lower
bound for it, and the stored envelope is normalised. -/
theorem step3_fallback_nearest_no_closer_address {G : Type}
    (dist : G → Pt → ℚ) (cfg : MatchConfig) (addresses : List AddressInput)
    (parcel : ParcelData G) (fuel : ℕ) (m : MatchOutput)
    (Hnn : ∀ p : Pt, 0 ≤ dist parcel.geom p)
    (Hlb : ∀ p : Pt, parcel.envelope.dist2 p ≤
      dist parcel.geom p * dist parcel.geom p)
    (Henv : AabbNormalized parcel.envelope)
    (h : step3ForParcel dist cfg addresses parcel fuel = some m)
    (hmt : m.match_type = MatchType.FallbackNearest) :
    (∃ a ∈ addresses, m.id_ban = a.id ∧
      m.distance_m = dist parcel.geom a.geom ∧
      insideEps < m.distance_m ∧
      m.distance_m ≤ cfg.fallback_max_distance_m) ∧
    ∀ a ∈ addresses, dist parcel.geom a.geom ≤ cfg.fallback_max_distance_m →
      m.distance_m ≤ dist parcel.geom a.geom := by
  unfold step3ForParcel at h
  cases hl : step3Loop dist cfg.fallback_max_distance_m parcel addresses fuel
      (max cfg.fallback_envelope_expand_m 5) ⟨[], none, false⟩ with
  | none => rw [hl] at h; simp at h
  | some st =>
    rw [hl] at h
    dsimp only at h
    have hsound : BestSound dist parcel addresses cfg.fallback_max_distance_m
        st := by
      apply step3Loop_bestSound hl
      intro i d aid hb
      simp at hb
    cases hb : st.best with
    | none => rw [hb] at h; simp at h
    | some b =>
      obtain ⟨i, bd, aid⟩ := b
      rw [hb] at h
      dsimp only at h
      by_cases heps : bd ≤ insideEps
      · rw [if_pos heps] at h
        simp only [Option.some.injEq] at h
        subst h
        simp [MatchOutput.new] at hmt
      · rw [if_neg heps] at h
        simp only [Option.some.injEq] at h
        subst h
        rcases hsound i bd aid hb with ⟨a, ha, rfl, rfl, hle⟩
        have hmin := step3Loop_strong_sound Hnn Hlb Henv
          (lt_of_lt_of_le (by norm_num) (le_max_right
            cfg.fallback_envelope_expand_m 5))
          (fun _ => rfl)
          ⟨fun i0 d0 aid0 hb0 => by simp at hb0,
           fun ia _ hmem => by simp at hmem⟩
          hl i (dist parcel.geom a.geom) a.id hb
        exact ⟨⟨a, ha, rfl, rfl, lt_of_not_le heps, hle⟩, hmin⟩

/-- Closed instance for C1 amended: the emitted fallback distance of five is
minimal at the sole address of the department. -/
theorem step3_fallback_no_closer_witness :
    (MatchOutput.new "a1" (some "P") MatchType.FallbackNearest 5).distance_m ≤
      (fun (_ : Unit) (p : Pt) => Aabb.dist2 ⟨⟨0, 0⟩, ⟨1, 1⟩⟩ p + 1) ()
        (⟨3, 0⟩ : Pt) := by
  have hrun : step3ForParcel
      (fun (_ : Unit) (p : Pt) => Aabb.dist2 ⟨⟨0, 0⟩, ⟨1, 1⟩⟩ p + 1)
      ⟨50, 1500, 50⟩ [⟨"a1", "c", ⟨3, 0⟩, none⟩]
      (⟨"P", "c", (), ⟨⟨0, 0⟩, ⟨1, 1⟩⟩⟩ : ParcelData Unit) 8 =
      some (MatchOutput.new "a1" (some "P") MatchType.FallbackNearest 5) := by
    norm_num +decide [step3ForParcel, step3Loop, step3Consider,
      locateInEnvelopeIdx, enumerate, enumIdx, expandAabb, Aabb.fromCorners,
      Aabb.containsPt, Aabb.dist2, insideEps, MatchOutput.new]
  exact (step3_fallback_nearest_no_closer_address
    (fun (_ : Unit) (p : Pt) => Aabb.dist2 ⟨⟨0, 0⟩, ⟨1, 1⟩⟩ p + 1)
    ⟨50, 1500, 50⟩ [⟨"a1", "c", ⟨3, 0⟩, none⟩]
    (⟨"P", "c", (), ⟨⟨0, 0⟩, ⟨1, 1⟩⟩⟩ : ParcelData Unit) 8 _
    (fun p => by have := dist2_nonneg ⟨⟨0, 0⟩, ⟨1, 1⟩⟩ p; dsimp only; linarith)
    (fun p => by have := dist2_nonneg ⟨⟨0, 0⟩, ⟨1, 1⟩⟩ p; dsimp only; nlinarith)
    ⟨by norm_num, by norm_num⟩ hrun rfl).2
    ⟨"a1", "c", ⟨3, 0⟩, none⟩ (List.mem_singleton.mpr rfl)
    (by norm_num [Aabb.dist2])

/-- Distance function of the C1 tie-break counterexample: the exact euclidean
distance of the unit square parcel at the two query points (both at distance
one, realisable as the points (2, 1/2) and (-1, 1/2) beside the unit square),
admissible elsewhere. -/
def cexTieDist (p : Pt) : ℚ :=
  if p = ⟨2, 1/2⟩ ∨ p = ⟨-1, 1/2⟩ then 1
  else Aabb.dist2 ⟨⟨0, 0⟩, ⟨1, 1⟩⟩ p + 1

/-- C1 counterexample. Two addresses tie at exact distance one from the unit
square parcel: address b at (2, 1/2) carrying index 0 and address a at
(-1, 1/2) carrying index 1, with a lexicographically smaller than b. Stage 3
records b first, then the envelope lower-bound pruning skips a because its
envelope distance already reaches the best distance, so the record goes to b
— refuting the claim that an exact tie is resolved to the lexicographically
smallest address id. -/
theorem step3_tiebreak_not_lexicographic :
    step3ForParcel (fun (_ : Unit) p => cexTieDist p) ⟨1/2, 1500, 50⟩
      [⟨"b", "c", ⟨2, 1/2⟩, none⟩, ⟨"a", "c", ⟨-1, 1/2⟩, none⟩]
      (⟨"P", "c", (), ⟨⟨0, 0⟩, ⟨1, 1⟩⟩⟩ : ParcelData Unit) 8 =
      some (MatchOutput.new "b" (some "P") MatchType.FallbackNearest 1) ∧
    cexTieDist ⟨-1, 1/2⟩ = 1 ∧ ("a" : String) < "b" ∧
    ¬ (∀ mm, step3ForParcel (fun (_ : Unit) p => cexTieDist p) ⟨1/2, 1500, 50⟩
        [⟨"b", "c", ⟨2, 1/2⟩, none⟩, ⟨"a", "c", ⟨-1, 1/2⟩, none⟩]
        (⟨"P", "c", (), ⟨⟨0, 0⟩, ⟨1, 1⟩⟩⟩ : ParcelData Unit) 8 = some mm →
      mm.match_type = MatchType.FallbackNearest →
      ∀ a ∈ [(⟨"b", "c", ⟨2, 1/2⟩, none⟩ : AddressInput),
             ⟨"a", "c", ⟨-1, 1/2⟩, none⟩],
        cexTieDist a.geom = mm.distance_m → ¬ (a.id < mm.id_ban)) := by
  have hrun : step3ForParcel (fun (_ : Unit) p => cexTieDist p) ⟨1/2, 1500, 50⟩
      [⟨"b", "c", ⟨2, 1/2⟩, none⟩, ⟨"a", "c", ⟨-1, 1/2⟩, none⟩]
      (⟨"P", "c", (), ⟨⟨0, 0⟩, ⟨1, 1⟩⟩⟩ : ParcelData Unit) 8 =
      some (MatchOutput.new "b" (some "P") MatchType.FallbackNearest 1) := by
    norm_num +decide [step3ForParcel, step3Loop, step3Consider, cexTieDist,
      locateInEnvelopeIdx, enumerate, enumIdx, expandAabb, Aabb.fromCorners,
      Aabb.containsPt, Aabb.dist2, insideEps, MatchOutput.new]
  have hlt : ("a" : String) < "b" := by simp +decide
  refine ⟨hrun, by norm_num [cexTieDist], hlt, ?_⟩
  intro hall
  have := hall _ hrun rfl ⟨"a", "c", ⟨-1, 1/2⟩, none⟩ (by simp)
    (by norm_num [cexTieDist, MatchOutput.new])
  exact this hlt

/-! Counting lemmas for the preexisting emissions (C3). -/

/-- Recogniser of a PreExisting record for a given address id and parcel id. -/
def preRecPred (aid pid : String) (m : MatchOutput) : Bool :=
  decide (m.id_ban = aid ∧ m.id_parcelle = some pid ∧
    m.match_type = MatchType.PreExisting)

/-- Number of PreExisting records for the pair (aid, pid) in a record batch. -/
def countPre (out : List MatchOutput) (aid pid : String) : ℕ :=
  out.countP (preRecPred aid pid)

/-- The trimmed non-empty tokens of the existing_link of an address. -/
def linkTokens (a : AddressInput) : List String :=
  match a.existing_link with
  | none => []
  | some links =>
    ((rustSplit links linkSep).map rustTrim).filter (fun t => decide (t ≠ ""))

theorem countP_flatMap {α β : Type} (p : β → Bool) (f : α → List β) :
    ∀ l : List α,
      (l.flatMap f).countP p = (l.map (fun x => (f x).countP p)).sum := by
  intro l
  induction l with
  | nil => rfl
  | cons x xs ih => simp [List.flatMap_cons, List.countP_append, ih]

/-- Summation of an indicator-guarded constant over a list with pairwise
distinct keys. -/
theorem sum_map_ite_const {α : Type} (key : α → String) (k : String) (v : ℕ) :
    ∀ l : List α, (l.map key).Nodup →
      (l.map (fun x => if key x = k then v else 0)).sum =
        if k ∈ l.map key then v else 0 := by
  intro l
  induction l with
  | nil => simp
  | cons x xs ih =>
    intro hnd
    simp only [List.map_cons, List.nodup_cons] at hnd
    obtain ⟨hx, hxs⟩ := hnd
    by_cases h : key x = k
    · have hk : k ∉ xs.map key := h ▸ hx
      have hz : (xs.map (fun y => if key y = k then v else 0)).sum = 0 := by
        apply List.sum_eq_zero
        intro y hy
        simp only [List.mem_map] at hy
        obtain ⟨x', hx', rfl⟩ := hy
        have hne : key x' ≠ k := fun he =>
          hk (he ▸ List.mem_map_of_mem key hx')
        simp [hne]
      simp [h, hz]
    · have h' : ¬ (k = key x) := fun he => h he.symm
      simp [h, h', ih hxs]

/-- Summation of a key-matched value over a list with pairwise distinct keys
picks the value of the matched element. -/
theorem sum_map_ite_key {α : Type} (key : α → String) (f : α → ℕ) :
    ∀ l : List α, (l.map key).Nodup → ∀ a ∈ l,
      (l.map (fun x => if key x = key a then f x else 0)).sum = f a := by
  intro l
  induction l with
  | nil => intro _ a ha; simp at ha
  | cons x xs ih =>
    intro hnd a ha
    simp only [List.map_cons, List.nodup_cons] at hnd
    obtain ⟨hx, hxs⟩ := hnd
    rcases List.mem_cons.mp ha with rfl | ha
    · have hz : (xs.map (fun y => if key y = key a then f y else 0)).sum = 0 := by
        apply List.sum_eq_zero
        intro y hy
        simp only [List.mem_map] at hy
        obtain ⟨x', hx', rfl⟩ := hy
        have hne : key x' ≠ key a := fun he =>
          hx (he ▸ List.mem_map_of_mem key hx')
        simp [hne]
      simp [hz]
    · have hne : key x ≠ key a := fun he =>
        hx (he ▸ List.mem_map_of_mem key ha)
      simp [hne, ih hxs a ha]

/-- Stage 2 emits no PreExisting record. -/
theorem step2_no_preexisting {G : Type} {dist : G → Pt → ℚ}
    {nn : AddressInput → List (ParcelData G)} {addresses : List AddressInput}
    {thr : ℚ} {aid pid : String} :
    (addresses.filterMap
      (fun a => step2ForAddress dist (nn a) thr a)).countP
        (preRecPred aid pid) = 0 := by
  apply List.countP_eq_zero.mpr
  intro m hm
  simp only [List.mem_filterMap] at hm
  obtain ⟨a, _, hma⟩ := hm
  rcases step2ForAddress_some hma with ⟨p, _, d, rfl, _⟩
  simp [preRecPred, MatchOutput.new]

/-- Stage 3 emits no PreExisting record. -/
theorem step3_no_preexisting {G : Type} {dist : G → Pt → ℚ}
    {cfg : MatchConfig} {addresses : List AddressInput}
    {l : List (ℕ × ParcelData G)} {fuel : ℕ} {aid pid : String} :
    (l.filterMap
      (fun ip => step3ForParcel dist cfg addresses ip.2 fuel)).countP
        (preRecPred aid pid) = 0 := by
  apply List.countP_eq_zero.mpr
  intro m hm
  simp only [List.mem_filterMap] at hm
  obtain ⟨ip, _, hma⟩ := hm
  rcases step3ForParcel_some hma with ⟨a, _, ⟨rfl, _⟩ | ⟨rfl, _⟩⟩ <;>
    simp [preRecPred, MatchOutput.new]

/-- The Stage 1 PreExisting count of one parcel is the count over its
preexisting-map entry: the Inside part contributes nothing. -/
theorem step1_countPre {G : Type} {dist : G → Pt → ℚ}
    {addresses : List AddressInput} {known : List String}
    {parcel : ParcelData G} {aid pid : String} :
    (step1ForParcel dist addresses known parcel).countP (preRecPred aid pid) =
      (preexistingMapGet addresses known parcel.id).countP
        (preRecPred aid pid) := by
  unfold step1ForParcel
  rw [List.countP_append]
  have h0 : ((locateInEnvelope addresses parcel.envelope).filterMap (fun addr =>
      if addr.id ∈ (preexistingMapGet addresses known parcel.id).map
          (·.id_ban) then none
      else if isInsideOrOnBorder dist parcel addr.geom then
        some (MatchOutput.new addr.id (some parcel.id) MatchType.Inside 0)
      else none)).countP (preRecPred aid pid) = 0 := by
    apply List.countP_eq_zero.mpr
    intro m hm
    simp only [List.mem_filterMap] at hm
    obtain ⟨addr, _, hma⟩ := hm
    by_cases h1 : addr.id ∈ (preexistingMapGet addresses known parcel.id).map
        (·.id_ban)
    · simp [h1] at hma
    · by_cases h2 : isInsideOrOnBorder dist parcel addr.geom
      · simp only [h1, if_false, h2, if_true, Option.some.injEq] at hma
        subst hma
        simp [preRecPred, MatchOutput.new]
      · simp [h1, h2] at hma
  omega

/-- A preexisting-map entry for a parcel id other than pid holds no record
counted for pid. -/
theorem mapGet_countPre_ne {addresses : List AddressInput}
    {known : List String} {aid pid q : String} (hq : q ≠ pid) :
    (preexistingMapGet addresses known q).countP (preRecPred aid pid) = 0 := by
  apply List.countP_eq_zero.mpr
  intro m hm
  rcases preexistingMapGet_mem hm with ⟨_, a, _, rfl⟩
  simp [preRecPred, MatchOutput.new, hq]

/-- Preexisting pairs of a single address, counted for (aid, pid): one per
occurrence of pid among the trimmed non-empty tokens, provided the parcel id
is known and the address id matches. -/
theorem pairs_single_count (known : List String) (aid pid : String)
    (a' : AddressInput) :
    (preexistingPairs [a'] known).countP
      (fun e => preRecPred aid pid e.2 && decide (e.1 = pid)) =
    if pid ∈ known ∧ a'.id = aid then (linkTokens a').count pid else 0 := by
  by_cases hk : pid ∈ known
  · by_cases hid : a'.id = aid
    · rw [if_pos ⟨hk, hid⟩]
      unfold preexistingPairs linkTokens
      cases hl : a'.existing_link with
      | none => simp [hl]
      | some links =>
        simp only [hl, List.flatMap_cons, List.flatMap_nil, List.append_nil]
        induction rustSplit links linkSep with
        | nil => simp
        | cons tok toks ih =>
          rw [List.filterMap_cons, List.map_cons, List.filter_cons]
          by_cases h1 : rustTrim tok = ""
          · rw [if_pos h1]
            simp [h1, ih]
          · rw [if_neg h1]
            by_cases h2 : rustTrim tok ∈ known
            · rw [if_pos h2, List.countP_cons]
              by_cases h3 : rustTrim tok = pid
              · have hpid : ¬ (pid = "") := fun he => h1 (h3.trans he)
                rw [hid] at ih
                simp only [preRecPred, MatchOutput.new, Bool.decide_and] at ih ⊢
                simp [h1, h3, hid, hpid, List.count_cons, ih]
              · rw [hid] at ih
                simp only [preRecPred, MatchOutput.new, Bool.decide_and] at ih ⊢
                simp [h1, h3, hid, List.count_cons, ih]
            · rw [if_neg h2]
              have h3 : rustTrim tok ≠ pid := fun he => h2 (he ▸ hk)
              simp [h1, h3, List.count_cons, ih]
    · rw [if_neg (fun hc => hid hc.2)]
      apply List.countP_eq_zero.mpr
      intro e he
      rcases preexistingPairs_mem he with ⟨_, a2, ha2, hrec⟩
      rcases List.mem_singleton.mp ha2
      simp [hrec, preRecPred, MatchOutput.new, hid]
  · rw [if_neg (fun hc => hk hc.1)]
    apply List.countP_eq_zero.mpr
    intro e he
    rcases preexistingPairs_mem he with ⟨hek, _⟩
    intro hP
    simp only [Bool.and_eq_true, decide_eq_true_eq] at hP
    exact hk (hP.2 ▸ hek)

/-- The preexisting-map entry of pid, counted for (aid, pid), equals the sum
over addresses of their matched token counts. -/
theorem mapGet_countPre_pid {addresses : List AddressInput}
    {known : List String} {aid pid : String} :
    (preexistingMapGet addresses known pid).countP (preRecPred aid pid) =
    (addresses.map (fun a' => if pid ∈ known ∧ a'.id = aid then
      (linkTokens a').count pid else 0)).sum := by
  unfold preexistingMapGet
  rw [List.countP_map, List.countP_filter]
  induction addresses with
  | nil => simp [preexistingPairs]
  | cons a as ih =>
    have hcons : preexistingPairs (a :: as) known =
        preexistingPairs [a] known ++ preexistingPairs as known := by
      simp [preexistingPairs]
    rw [hcons, List.countP_append, ih, List.map_cons, List.sum_cons]
    congr 1
    exact pairs_single_count known aid pid a

/-- C3 amended. For a department with pairwise distinct parcel ids and
address ids, the matcher emits the PreExisting record (a.id, p, 0) exactly
once per occurrence of p among the trimmed non-empty tokens of the
existing_link of a, provided p is a known parcel id, and never otherwise. In
particular a duplicated token yields a duplicated record (refuted claim), a
link listing an unknown parcel id yields no record, and a single occurrence
of a known id yields exactly one record. -/
theorem preexisting_count_per_token {G : Type} (dist : G → Pt → ℚ)
    (nn : AddressInput → List (ParcelData G)) (parcels : List (ParcelData G))
    (addresses : List AddressInput) (cfg : MatchConfig) (fuel : ℕ)
    (hP : (parcels.map (·.id)).Nodup) (hA : (addresses.map (·.id)).Nodup)
    (a : AddressInput) (ha : a ∈ addresses) (pid : String) :
    countPre (matchParcelsAndAddresses3Steps dist nn parcels addresses cfg fuel)
      a.id pid =
      if pid ∈ parcels.map (·.id) then (linkTokens a).count pid else 0 := by
  unfold countPre
  simp only [matchParcelsAndAddresses3Steps]
  rw [List.countP_append, List.countP_append, step2_no_preexisting,
    step3_no_preexisting, countP_flatMap]
  have hfun : ∀ p ∈ parcels,
      (step1ForParcel dist addresses (parcels.map (·.id)) p).countP
        (preRecPred a.id pid) =
      if p.id = pid then
        (preexistingMapGet addresses (parcels.map (·.id)) pid).countP
          (preRecPred a.id pid)
      else 0 := by
    intro p _
    rw [step1_countPre]
    by_cases hq : p.id = pid
    · rw [if_pos hq, hq]
    · rw [if_neg hq, mapGet_countPre_ne hq]
  rw [List.map_congr_left hfun, sum_map_ite_const (·.id) pid _ parcels hP]
  by_cases hk : pid ∈ parcels.map (·.id)
  · rw [if_pos hk, if_pos hk, mapGet_countPre_pid]
    have hterm : ∀ a' ∈ addresses,
        (if pid ∈ parcels.map (·.id) ∧ a'.id = a.id then
          (linkTokens a').count pid else 0) =
        (if a'.id = a.id then (linkTokens a').count pid else 0) := by
      intro a' _
      by_cases hi : a'.id = a.id
      · simp [hi, hk]
      · simp [hi]
    rw [List.map_congr_left hterm,
      sum_map_ite_key (·.id) (fun a' => (linkTokens a').count pid) addresses
        hA a ha]
    omega
  · rw [if_neg hk, if_neg hk]

/-- Closed instance for C3 amended: a link listing P1 once and the unknown P2
yields exactly one PreExisting record for P1. -/
theorem preexisting_count_per_token_witness :
    countPre (matchParcelsAndAddresses3Steps (fun (_ : Unit) _ => (0 : ℚ))
      (fun _ => [⟨"P1", "c", (), ⟨⟨0, 0⟩, ⟨1, 1⟩⟩⟩])
      [⟨"P1", "c", (), ⟨⟨0, 0⟩, ⟨1, 1⟩⟩⟩]
      [⟨"a1", "c", ⟨5, 5⟩, some "P1;P2"⟩] ⟨50, 1500, 50⟩ 8) "a1" "P1" = 1 := by
  have h := preexisting_count_per_token (fun (_ : Unit) _ => (0 : ℚ))
    (fun _ => [⟨"P1", "c", (), ⟨⟨0, 0⟩, ⟨1, 1⟩⟩⟩])
    [⟨"P1", "c", (), ⟨⟨0, 0⟩, ⟨1, 1⟩⟩⟩]
    [⟨"a1", "c", ⟨5, 5⟩, some "P1;P2"⟩] ⟨50, 1500, 50⟩ 8
    (by simp) (by simp) ⟨"a1", "c", ⟨5, 5⟩, some "P1;P2"⟩
    (List.mem_singleton.mpr rfl) "P1"
  rw [h]
  norm_num +decide [linkTokens, rustSplit, splitCharsAux, rustTrim, linkSep,
    List.count_cons]

/-- C3 counterexample. An address whose existing_link lists the known parcel
P1 twice: the matcher emits the PreExisting record twice, so the record is
not emitted exactly once although P1 is a trimmed non-empty token of the
link and a known parcel id. -/
theorem preexisting_duplicate_token_twice :
    countPre (matchParcelsAndAddresses3Steps (fun (_ : Unit) _ => (0 : ℚ))
      (fun _ => [⟨"P1", "c", (), ⟨⟨0, 0⟩, ⟨1, 1⟩⟩⟩])
      [⟨"P1", "c", (), ⟨⟨0, 0⟩, ⟨1, 1⟩⟩⟩]
      [⟨"a1", "c", ⟨5, 5⟩, some "P1;P1"⟩] ⟨50, 1500, 50⟩ 8) "a1" "P1" = 2 ∧
    "P1" ∈ linkTokens ⟨"a1", "c", ⟨5, 5⟩, some "P1;P1"⟩ ∧
    "P1" ∈ ([⟨"P1", "c", (), ⟨⟨0, 0⟩, ⟨1, 1⟩⟩⟩] :
      List (ParcelData Unit)).map (·.id) ∧
    ¬ (countPre (matchParcelsAndAddresses3Steps (fun (_ : Unit) _ => (0 : ℚ))
        (fun _ => [⟨"P1", "c", (), ⟨⟨0, 0⟩, ⟨1, 1⟩⟩⟩])
        [⟨"P1", "c", (), ⟨⟨0, 0⟩, ⟨1, 1⟩⟩⟩]
        [⟨"a1", "c", ⟨5, 5⟩, some "P1;P1"⟩] ⟨50, 1500, 50⟩ 8) "a1" "P1" = 1 ↔
      ("P1" ∈ linkTokens ⟨"a1", "c", ⟨5, 5⟩, some "P1;P1"⟩ ∧
        "P1" ∈ ([⟨"P1", "c", (), ⟨⟨0, 0⟩, ⟨1, 1⟩⟩⟩] :
          List (ParcelData Unit)).map (·.id))) := by
  have h2 : countPre (matchParcelsAndAddresses3Steps (fun (_ : Unit) _ => (0 : ℚ))
      (fun _ => [⟨"P1", "c", (), ⟨⟨0, 0⟩, ⟨1, 1⟩⟩⟩])
      [⟨"P1", "c", (), ⟨⟨0, 0⟩, ⟨1, 1⟩⟩⟩]
      [⟨"a1", "c", ⟨5, 5⟩, some "P1;P1"⟩] ⟨50, 1500, 50⟩ 8) "a1" "P1" = 2 := by
    norm_num +decide [countPre, preRecPred, matchParcelsAndAddresses3Steps,
      step1ForParcel, step2ForAddress, step2Loop, preexistingMapGet,
      preexistingPairs, rustSplit, splitCharsAux, rustTrim, linkSep,
      locateInEnvelope, Aabb.containsPt, markedIndices, parcelIdxById,
      enumerate, enumIdx, isInsideOrOnBorder, insideEps, parcelNodeDist2,
      MatchOutput.new, List.countP_cons]
  have htok : "P1" ∈ linkTokens ⟨"a1", "c", ⟨5, 5⟩, some "P1;P1"⟩ := by
    norm_num +decide [linkTokens, rustSplit, splitCharsAux, rustTrim, linkSep]
  refine ⟨h2, htok, by simp, ?_⟩
  intro hiff
  have h1 := hiff.mpr ⟨htok, by simp⟩
  rw [h2] at h1
  exact absurd h1 (by norm_num)

end BanCadastre
